import Mathlib

/-!
Verification of the memalloc two-tier memory allocator (buddy + slab + composite
front end) against its natural-language specification.

The development shallowly embeds the Rust sources:
  * `src/buddy.rs`  — the buddy allocator (`BuddyAlloc`, `find_mem`, `release_mem`);
  * `src/pager.rs`  — the 3-level bitmap `PageManager`;
  * `src/slab.rs`   — the slab size-class dispatch and the generic
    `alloc_memory` list manipulation (instantiated at the 32752-byte class);
  * `src/lib.rs`    — the composite front end (`mem_alloc`, `mem_alloc_align`,
    `mem_free`, `GlobalAlloc::alloc`).

Machine integers (`u64`/`usize`) are modelled as `Nat` with explicit masking by
`2 ^ 64` where the code relies on fixed width; fixed-size arrays are modelled as
total functions from indices; raw pointers are modelled as `Nat` addresses with
`0` playing the role of `null`; panics are modelled by `Option`/`Except`.
-/

namespace Memalloc

/-- All-ones 64-bit word, the value of `!0u64`. -/
def MASK64 : Nat := 2 ^ 64 - 1

/-- Bit length of `x`, computed by at most `fuel` halving steps. -/
def bitlen : Nat → Nat → Nat
  | 0, _ => 0
  | fuel + 1, x => if x = 0 then 0 else bitlen fuel (x / 2) + 1

/-- `u64::leading_zeros`: 64 minus the bit length of the argument (which is
`< 2^64`, so 64 division steps always exhaust it). -/
def clz64 (x : Nat) : Nat := 64 - bitlen 64 x

/-- PAGE size constant `SIZE_64K` from `lib.rs`. -/
def SIZE_64K : Nat := 64 * 1024

/-- Mask constant `MASK_64K` from `lib.rs`. -/
def MASK_64K : Nat := SIZE_64K - 1

/-- Tag `0b00`: the node is unused (`buddy.rs::TAG_UNUSED`). -/
def TAG_UNUSED : Nat := 0

/-- Tag `0b01`: the node is an inner node (`buddy.rs::TAG_INNER`). -/
def TAG_INNER : Nat := 1

/-- Tag `0b10`: the node is a used leaf (`buddy.rs::TAG_USED_LEAF`). -/
def TAG_USED_LEAF : Nat := 2

/-- State of `BuddyAlloc<DEPTH, NUM_NODES32>` (buddy.rs).  The const generic
`DEPTH` is a parameter of the operations; the fixed `[u64; NUM_NODES32]`
bitmap array is modelled as a total function from word index to word value
(words beyond the array are never touched by the code and stay `0`). -/
structure BuddyAlloc where
  min_size : Nat
  start : Nat
  bitmap : Nat → Nat

/-- Reading the 2-bit tag of node `idx` (buddy.rs `get_tag`):
`(self.bitmap[idx >> 5] >> ((idx & 0b11111) * 2)) & 0b11`. -/
def get_tag (st : BuddyAlloc) (idx : Nat) : Nat :=
  (st.bitmap (idx >>> 5) >>> ((idx &&& 31) * 2)) &&& 3

/-- Writing the 2-bit tag of node `idx` (buddy.rs `set_tag`):
`bitmap[i] = (bitmap[i] & !mask) | (tag << (j*2))` with `mask = 0b11 << (j*2)`;
the `u64` complement `!mask` is `MASK64 ^^^ mask`. -/
def set_tag (st : BuddyAlloc) (idx tag : Nat) : BuddyAlloc :=
  let i := idx >>> 5
  let j := idx &&& 31
  let mask : Nat := 3 <<< (j * 2)
  { st with
    bitmap := Function.update st.bitmap i
      ((st.bitmap i &&& (MASK64 ^^^ mask)) ||| (tag <<< (j * 2))) }

/-- Linear index of the node at `(depth, offset)` (buddy.rs `get_idx`). -/
def get_idx (depth offset : Nat) : Nat :=
  if depth = 0 then 0 else (1 <<< depth) - 1 + offset

/-- Recursive descent allocation (buddy.rs `find_mem`).  The outer `Option`
models the `panic!("unknown tag")` abort of `get_tag` (never reached from
well-formed states); the inner pair is the returned address option together
with the mutated allocator state.  The Rust recursion is bounded by the
`depth > DEPTH` guard; the structural `fuel` argument mirrors that bound and
is instantiated with `DEPTH + 1` by `buddy_alloc`, which always suffices
because every recursive call increases `depth`. -/
def find_mem (DEPTH fuel : Nat) (st : BuddyAlloc) (req bytes depth offset : Nat) :
    Option (Option Nat × BuddyAlloc) :=
  match fuel with
  | 0 => none
  | fuel + 1 =>
    if bytes < req ∨ DEPTH < depth then some (none, st)
    else
      let idx := get_idx depth offset
      let t := get_tag st idx
      if t = TAG_USED_LEAF then some (none, st)
      else if t = TAG_UNUSED then
        let next_bytes := bytes >>> 1
        if req ≤ next_bytes ∧ depth < DEPTH then
          find_mem DEPTH fuel (set_tag st idx TAG_INNER) req next_bytes (depth + 1) (offset * 2)
        else
          some (some (st.start + bytes * offset), set_tag st idx TAG_USED_LEAF)
      else if t = TAG_INNER then
        match find_mem DEPTH fuel st req (bytes >>> 1) (depth + 1) (offset * 2) with
        | some (none, st1) => find_mem DEPTH fuel st1 req (bytes >>> 1) (depth + 1) (offset * 2 + 1)
        | r => r
      else none

/-- Recursive descent free (buddy.rs `release_mem`).  `Except` carries the
panic messages of the source.  The Rust recursion is bounded in practice by the
fixed bitmap array (descending past it aborts on an out-of-range index); the
`fuel` argument models that bound and is instantiated with `DEPTH + 1` by
`buddy_free`, which suffices for every well-formed state. -/
def release_mem (fuel : Nat) (st : BuddyAlloc) (addr bytes depth offset : Nat) :
    Except String BuddyAlloc :=
  match fuel with
  | 0 => .error "index out of range"
  | fuel + 1 =>
    let idx := get_idx depth offset
    let t := get_tag st idx
    if t = TAG_UNUSED then .error "freed unused memory"
    else if t = TAG_USED_LEAF then
      if st.start + bytes * offset = addr then .ok (set_tag st idx TAG_UNUSED)
      else .error "freed invalid address"
    else if t = TAG_INNER then
      let pivot := st.start + bytes * offset + (bytes >>> 1)
      let r :=
        if addr < pivot then release_mem fuel st addr (bytes >>> 1) (depth + 1) (offset * 2)
        else release_mem fuel st addr (bytes >>> 1) (depth + 1) (offset * 2 + 1)
      match r with
      | .ok st1 =>
        if get_tag st1 (get_idx (depth + 1) (offset * 2)) = TAG_UNUSED ∧
            get_tag st1 (get_idx (depth + 1) (offset * 2 + 1)) = TAG_UNUSED then
          .ok (set_tag st1 idx TAG_UNUSED)
        else .ok st1
      | e => e
    else .error "unknown tag"

/-- Entry point `buddy_alloc` (buddy.rs): descend from the root with the whole
heap, `(1 << DEPTH) * self.min_size` bytes. -/
def buddy_alloc (DEPTH : Nat) (st : BuddyAlloc) (size : Nat) :
    Option (Option Nat × BuddyAlloc) :=
  find_mem DEPTH (DEPTH + 1) st size ((1 <<< DEPTH) * st.min_size) 0 0

/-- Entry point `buddy_free` (buddy.rs). -/
def buddy_free (DEPTH : Nat) (st : BuddyAlloc) (addr : Nat) :
    Except String BuddyAlloc :=
  release_mem (DEPTH + 1) st addr ((1 <<< DEPTH) * st.min_size) 0 0

/-- Constructor `BuddyAlloc::new` (buddy.rs `MemAlloc::new`): asserts
`size == (1 << DEPTH) * SIZE_64K` (modelled as `Option`), zeroes the bitmap and
sets `min_size = SIZE_64K`. -/
def buddy_new (DEPTH start size : Nat) : Option BuddyAlloc :=
  if size = (1 <<< DEPTH) * SIZE_64K then
    some { min_size := SIZE_64K, start := start, bitmap := fun _ => 0 }
  else none

/-! Node combinatorics for the complete binary tree: the node at depth `d`,
offset `o ∈ [0, 2^d)` has linear index `2^d - 1 + o`, and every linear index
decodes uniquely back to such a pair. -/

/-- Canonical linear index of the node at `(d, o)`. -/
def nodeIdx (d o : Nat) : Nat := 2 ^ d - 1 + o

/-- Depth of the node with linear index `idx`. -/
def idxDepth (idx : Nat) : Nat := Nat.log2 (idx + 1)

/-- Offset (within its depth) of the node with linear index `idx`. -/
def idxOff (idx : Nat) : Nat := idx + 1 - 2 ^ idxDepth idx

/-- The node `(d', o')` lies (weakly) in the subtree rooted at `(d, o)`. -/
def below (d o d' o' : Nat) : Prop := d ≤ d' ∧ o' >>> (d' - d) = o

instance (d o d' o' : Nat) : Decidable (below d o d' o') := by
  unfold below; infer_instance

/-- The node `(d', o')` lies strictly below `(d, o)`. -/
def strictBelow (d o d' o' : Nat) : Prop := below d o d' o' ∧ d < d'

instance (d o d' o' : Nat) : Decidable (strictBelow d o d' o') := by
  unfold strictBelow; infer_instance

/-- Total heap size managed by the buddy: `(1 << DEPTH) * min_size`. -/
def heapBytes (DEPTH msz : Nat) : Nat := (1 <<< DEPTH) * msz

/-- Base address of the block of node `(d, o)`. -/
def nodeAddr (DEPTH : Nat) (st : BuddyAlloc) (d o : Nat) : Nat :=
  st.start + (heapBytes DEPTH st.min_size >>> d) * o

/-- Ghost abstraction: the tag tree canonically determined by the set `L` of
live (allocated) leaf positions.  A node is `USED_LEAF` iff it is in `L`,
`INNER` iff some member of `L` lies strictly below it, `UNUSED` otherwise. -/
def tagOf (L : Finset (Nat × Nat)) (idx : Nat) : Nat :=
  if (idxDepth idx, idxOff idx) ∈ L then TAG_USED_LEAF
  else if ∃ n ∈ L, strictBelow (idxDepth idx) (idxOff idx) n.1 n.2 then TAG_INNER
  else TAG_UNUSED

/-- Well-formedness of a live set: members are valid nodes of the depth-`DEPTH`
tree and form an antichain (no member lies in the subtree of another). -/
def wfL (DEPTH : Nat) (L : Finset (Nat × Nat)) : Prop :=
  (∀ n ∈ L, n.1 ≤ DEPTH ∧ n.2 < 2 ^ n.1) ∧
  ∀ n ∈ L, ∀ m ∈ L, n ≠ m → ¬ below n.1 n.2 m.1 m.2

/-- The reachable-state invariant of the buddy bitmap: the state is exactly the
canonical encoding of a well-formed live set `L` (every word holding only
in-range 64-bit values). -/
def goodState (DEPTH : Nat) (st : BuddyAlloc) (L : Finset (Nat × Nat)) : Prop :=
  wfL DEPTH L ∧ (∀ idx, get_tag st idx = tagOf L idx) ∧ ∀ i, st.bitmap i < 2 ^ 64

/-- A free block of the tree able to serve a request of `req` bytes: an
`UNUSED` node, all of whose strict ancestors are `INNER`, whose block size is
at least `req`. -/
def availAt (DEPTH : Nat) (st : BuddyAlloc) (req d o : Nat) : Prop :=
  d ≤ DEPTH ∧ o < 2 ^ d ∧ req ≤ heapBytes DEPTH st.min_size >>> d ∧
  get_tag st (nodeIdx d o) = TAG_UNUSED ∧
  ∀ k, k < d → get_tag st (nodeIdx k (o >>> (d - k))) = TAG_INNER

/-- Subtree-relative version of `availAt`, used through the descent: a free
block weakly below `(depth, offset)` whose ancestors strictly between it and
`(depth, offset)` (inclusive) are all `INNER`. -/
def availSub (DEPTH : Nat) (st : BuddyAlloc) (req depth offset d o : Nat) : Prop :=
  below depth offset d o ∧ d ≤ DEPTH ∧ req ≤ heapBytes DEPTH st.min_size >>> d ∧
  get_tag st (nodeIdx d o) = TAG_UNUSED ∧
  ∀ k, depth ≤ k → k < d → get_tag st (nodeIdx k (o >>> (d - k))) = TAG_INNER

/-- An alloc/free operation issued to the buddy allocator. -/
inductive BOp where
  | alloc (req : Nat)
  | free (addr : Nat)

/-- Driver for well-formed buddy operation sequences: it runs the source
entry points `buddy_alloc`/`buddy_free` and tracks the list of currently live
allocation addresses; a `free` whose address is not live (or any source panic)
makes the run ill-formed (`none`). -/
def runOps (DEPTH : Nat) : BuddyAlloc → List Nat → List BOp → Option (BuddyAlloc × List Nat)
  | st, live, [] => some (st, live)
  | st, live, BOp.alloc req :: ops =>
    match buddy_alloc DEPTH st req with
    | none => none
    | some (none, st1) => runOps DEPTH st1 live ops
    | some (some a, st1) => runOps DEPTH st1 (a :: live) ops
  | st, live, BOp.free addr :: ops =>
    if addr ∈ live then
      match buddy_free DEPTH st addr with
      | .ok st1 => runOps DEPTH st1 (live.erase addr) ops
      | .error _ => none
    else none

/-! The `PageManager` of pager.rs: a 3-level bitmap over up to 64^3 pages of
64 KiB.  The `[u64; 64]` arrays are total functions from index to word. -/

/-- State of `PageManager` (pager.rs).  The Rust field `end` is a Lean keyword
and is written `«end»`. -/
structure PageManager where
  start : Nat
  «end» : Nat
  vacancy_books : Nat
  vacancy_pages : Nat → Nat
  book : Nat → Nat → Nat

/-- Allocation scan `PageManager::page_alloc` (pager.rs): three leading-zero
scans select `(idx1, idx2, idx3)`; the page bit is set and fullness is
propagated upward.  In reachable states the three scans always yield indices
`≤ 63`, so the truncated `Nat` subtraction `63 - idx` agrees with the source. -/
def page_alloc (pm : PageManager) : Option (Nat × PageManager) :=
  if pm.vacancy_books = MASK64 then none
  else
    let idx1 := clz64 (MASK64 ^^^ pm.vacancy_books)
    let idx2 := clz64 (MASK64 ^^^ pm.vacancy_pages idx1)
    let idx3 := clz64 (MASK64 ^^^ pm.book idx1 idx2)
    let addr := 64 * 1024 * 64 * 64 * idx1 + 64 * 1024 * 64 * idx2 + 64 * 1024 * idx3 + pm.start
    if pm.«end» ≤ addr then none
    else
      let w := pm.book idx1 idx2 ||| (1 <<< (63 - idx3))
      let pm1 := { pm with book := Function.update pm.book idx1 (Function.update (pm.book idx1) idx2 w) }
      let pm2 :=
        if w = MASK64 then
          let v := pm1.vacancy_pages idx1 ||| (1 <<< (63 - idx2))
          let pm2 := { pm1 with vacancy_pages := Function.update pm1.vacancy_pages idx1 v }
          if v = MASK64 then
            { pm2 with vacancy_books := pm2.vacancy_books ||| (1 <<< (63 - idx1)) }
          else pm2
        else pm1
      some (addr, pm2)

/-- Free `PageManager::page_free` (pager.rs).  `none` models the
`panic!("invalid address")` abort.  Note: the source computes `idx1` from the
offset `addr - start` but `idx2` and `idx3` from the absolute address. -/
def page_free (pm : PageManager) (addr : Nat) : Option PageManager :=
  if addr &&& 0xFFFF ≠ 0 ∨ pm.«end» ≤ addr ∨ addr < pm.start then none
  else
    let idx1 := ((addr - pm.start) >>> 28) &&& 63
    let idx2 := (addr >>> 22) &&& 63
    let idx3 := (addr >>> 16) &&& 63
    some { pm with
      book := Function.update pm.book idx1
        (Function.update (pm.book idx1) idx2
          (pm.book idx1 idx2 &&& (MASK64 ^^^ (1 <<< (63 - idx3))))),
      vacancy_pages := Function.update pm.vacancy_pages idx1
        (pm.vacancy_pages idx1 &&& (MASK64 ^^^ (1 <<< (63 - idx2)))),
      vacancy_books := pm.vacancy_books &&& (MASK64 ^^^ (1 <<< (63 - idx1))) }

/-- Constructor `PageManager::new` (pager.rs `MemAlloc::new`): asserts
`size % SIZE_64K == 0` (modelled as `Option`) and zeroes all bitmaps. -/
def pm_new (start size : Nat) : Option PageManager :=
  if size % SIZE_64K = 0 then
    some { start := start, «end» := start + size, vacancy_books := 0,
           vacancy_pages := fun _ => 0, book := fun _ _ => 0 }
  else none

/-! The slab layer (slab.rs): size-class dispatch and the generic
`alloc_memory` list manipulation, instantiated at the `Slab32752` class. -/

/-- Largest size served by the slab, `MAX_SLAB_SIZE` (slab.rs). -/
def MAX_SLAB_SIZE : Nat := 65512 - 8

/-- Size-class dispatch of `slab_alloc` (slab.rs lines 160-251): each match
arm is abstracted to the nominal size of the class whose partial/full pools it
allocates from; `none` is the final else branch (request too large). -/
def slab_class (size : Nat) : Option Nat :=
  let n := clz64 (size + 8 - 1)
  if n = 61 ∨ n = 60 then some 16
  else if n = 59 then some 32
  else if n = 58 then some 64
  else if n = 57 then some 128
  else if n = 56 then some 256
  else if n = 55 then some 512
  else if n = 54 then some 1024
  else if size ≤ 4088 - 16 then
    if size ≤ 2040 - 16 then some 2040 else some 4088
  else if size ≤ 16376 - 16 then
    if size ≤ 8184 - 16 then some 8184 else some 16376
  else if size ≤ 32752 - 16 then some 32752
  else if size ≤ 65512 - 8 then some 65512
  else none

/-- Modelled from the spec (§3 Size Classes, §4.2 Contract): the table of the
13 nominal class sizes with their user-visible capacities (nominal size minus
the 8-byte header for the two-level classes and 65512, minus the 16-byte
header for the single-level classes 2040-32752). -/
def SLAB_CLASSES : List (Nat × Nat) :=
  [(16, 8), (32, 24), (64, 56), (128, 120), (256, 248), (512, 504), (1024, 1016),
   (2040, 2024), (4088, 4072), (8184, 8168), (16376, 16360), (32752, 32736), (65512, 65504)]

/-- Modelled from the spec (§4.2): the smallest class whose user-visible
capacity is at least `size`.  This is the specification-side definition that
`slab_class` is compared against. -/
def spec_smallest_class (size : Nat) : Option Nat :=
  (SLAB_CLASSES.find? fun c => decide (size ≤ c.2)).map Prod.fst

/-- A `Slab32752` page header (slab.rs `SlabLarge!(Slab32752, ...)`), laid out
at the base of a 64 KiB page: `buf` is the 65504-byte object area, modelled as
a map from byte offset to the 8-byte word stored there. -/
structure Slab32752 where
  buf : Nat → Nat
  prev : Nat
  next : Nat
  l1_bitmap : Nat
  num : Nat
  size : Nat

/-- Initialization `Slab::init` for `Slab32752` (slab.rs):
`l1_bitmap = 0x3FFFFFFFFFFFFFFF`, `size = 32752`. -/
def slab32752_init (s : Slab32752) : Slab32752 :=
  { s with prev := 0, next := 0, l1_bitmap := 0x3FFFFFFFFFFFFFFF, size := 32752, num := 0 }

/-- Allocation `Slab::alloc` for `Slab32752` (slab.rs): leading-zero scan of
the complemented bitmap, set the bit, write the 16-byte `SlabMemory` header
`(idx1, page base)` into the slot, return the address 16 bytes past the slot
base.  `none` models the out-of-range index panic (`buf` has 65504 bytes);
pages with no free slot are never passed here by the callers. -/
def slab32752_alloc (s : Slab32752) (self_addr : Nat) : Option (Slab32752 × Nat) :=
  let idx1 := clz64 (MASK64 ^^^ s.l1_bitmap)
  let l1 := s.l1_bitmap ||| (1 <<< (63 - idx1))
  let idx := idx1 * s.size
  if idx + 16 < 65504 then
    let buf1 := Function.update s.buf idx idx1
    let buf2 := Function.update buf1 (idx + 8) self_addr
    some ({ s with buf := buf2, l1_bitmap := l1, num := s.num + 1 }, self_addr + idx + 16)
  else none

/-- Fullness test `Slab::is_full` for `Slab32752` (slab.rs): `l1_bitmap == !0`. -/
def slab32752_is_full (s : Slab32752) : Bool := s.l1_bitmap = MASK64

/-- Pointer write `Slab::set_prev` (slab.rs). -/
def slab32752_set_prev (s : Slab32752) (p : Nat) : Slab32752 := { s with prev := p }

/-- Pointer write `Slab::set_next` (slab.rs). -/
def slab32752_set_next (s : Slab32752) (p : Nat) : Slab32752 := { s with next := p }

/-- Output of `alloc_memory` (slab.rs): returned pointer, page-source state,
page store, and the values left in `*slab_partial_top` / `*slab_full_top`. -/
structure AllocMemResult (A : Type) where
  ret : Option Nat
  pa : A
  store : Nat → Slab32752
  slab_partial : Nat
  slab_full : Nat

/-- The generic `alloc_memory` of slab.rs (lines 38-99), monomorphized at
`SLAB = Slab32752`.  Pages live in `store` keyed by their 64 KiB base address;
a null pointer is the address `0`.  `slab_partial`/`slab_full` are the values
of `*slab_partial_top`/`*slab_full_top` on entry.  The outer `Option` models
panics inside `Slab::alloc`. -/
def alloc_memory32752 {A : Type} (paAlloc : A → Nat → Option Nat × A)
    (pa : A) (store : Nat → Slab32752) ( slab_partial slab_full : Nat) :
    Option (AllocMemResult A) :=
  if slab_partial ≠ 0 then
    match slab32752_alloc (store slab_partial) slab_partial with
    | none => none
    | some (pg, ret) =>
      let store1 := Function.update store slab_partial pg
      if slab32752_is_full pg then
        let store2 :=
          if pg.next ≠ 0 then
            Function.update store1 pg.next (slab32752_set_prev (store1 pg.next) 0)
          else store1
        let partial1 := pg.next
        let store3 :=
          if slab_full ≠ 0 then
            Function.update store2 slab_full (slab32752_set_prev (store2 slab_full) slab_partial)
          else store2
        let store4 :=
          Function.update store3 slab_partial (slab32752_set_next (store3 slab_partial) slab_full)
        some ⟨some ret, pa, store4, partial1, slab_full⟩
      else
        some ⟨some ret, pa, store1, slab_partial, slab_full⟩
  else
    match paAlloc pa SIZE_64K with
    | (some addr, pa1) =>
      if addr ≠ 0 then
        let pg0 := slab32752_init (store addr)
        match slab32752_alloc pg0 addr with
        | none => none
        | some (pg1, ret) =>
          let store1 := Function.update store addr pg1
          if slab32752_is_full pg1 then
            let store2 :=
              if slab_full ≠ 0 then
                Function.update store1 slab_full (slab32752_set_prev (store1 slab_full) addr)
              else store1
            let store3 := Function.update store2 addr (slab32752_set_next (store2 addr) slab_full)
            some ⟨some ret, pa1, store3, slab_partial, addr⟩
          else
            some ⟨some ret, pa1, store1, addr, slab_full⟩
      else some ⟨none, pa1, store, slab_partial, slab_full⟩
    | (none, pa1) => some ⟨none, pa1, store, slab_partial, slab_full⟩

/-- Membership of a page address in the `next`-linked list with the given
head, up to `fuel` hops (the full list of a class as reachable from
`*slab_full_top`). -/
def inSlabList (store : Nat → Slab32752) (head addr fuel : Nat) : Bool :=
  match fuel with
  | 0 => false
  | fuel + 1 =>
    if head = 0 then false
    else if head = addr then true
    else inSlabList store (store head).next addr fuel

/-! The composite front end of lib.rs.  The slab allocator underneath is kept
abstract (a state type `S` with its operation functions), which mirrors the
`PAGEALLOC: MemAlloc` generic of the source; the `MCSLock` is the identity in
this sequential model.  The 8-byte header written by the alignment adaptation
lives in the byte-addressed word memory `mem`. -/

/-- State of `Allocator<PAGEALLOC>` (lib.rs): `slab` is `None` until `init`
is called.  The unmap callback is not stored; the pair passed to it is
returned by the free operations instead. -/
structure Allocator (S : Type) where
  slab : Option S

/-- Routing `Allocator::mem_alloc` (lib.rs lines 143-159): slab for
`size ≤ MAX_SLAB_SIZE`, page/buddy allocator otherwise; `None` when
uninitialized. -/
def mem_alloc {S : Type} (slabAlloc pageAlloc : S → Nat → Option Nat × S)
    (a : Allocator S) (size : Nat) : Option Nat × Allocator S :=
  if size ≤ MAX_SLAB_SIZE then
    match a.slab with
    | some s => let r := slabAlloc s size; (r.1, { slab := some r.2 })
    | none => (none, a)
  else
    match a.slab with
    | some s => let r := pageAlloc s size; (r.1, { slab := some r.2 })
    | none => (none, a)

/-- Alignment adaptation `Allocator::mem_alloc_align` (lib.rs lines 100-121).
For `alignment > 8` it over-allocates `size + (align-1) + 8` bytes, rounds up
to the alignment, and stores the raw pointer in the 8 bytes preceding the
returned address (the `usize` sum wraps modulo `2^64` as in release builds). -/
def mem_alloc_align {S : Type} (slabAlloc pageAlloc : S → Nat → Option Nat × S)
    (a : Allocator S) (mem : Nat → Nat) (size align : Nat) :
    Option Nat × Allocator S × (Nat → Nat) :=
  if align ≤ 8 then
    let r := mem_alloc slabAlloc pageAlloc a size
    (r.1, r.2, mem)
  else
    let align_1 := align - 1
    let size1 := size + align_1 + 8
    match mem_alloc slabAlloc pageAlloc a size1 with
    | (some ptr, a1) =>
      let addr := ((ptr + align_1 + 8) % 2 ^ 64) &&& (MASK64 ^^^ align_1)
      (some addr, a1, Function.update mem (addr - 8) ptr)
    | (none, a1) => (none, a1, mem)

/-- Free routing `Allocator::mem_free` (lib.rs lines 161-185).  The result
pair is the `(start, end)` argument passed to the unmap callback (`none` when
the callback is not invoked).  The slab path invokes it with `(addr, addr)`;
the page/buddy path with `(start, start >> (16 + (0 or 1)))`. -/
def mem_free {S : Type} (slabDealloc : S → Nat → Option Nat × S) (pageFree : S → Nat → S)
    (a : Allocator S) (ptr size : Nat) : Allocator S × Option (Nat × Nat) :=
  if size ≤ MAX_SLAB_SIZE then
    match a.slab with
    | some s =>
      let r := slabDealloc s ptr
      ({ slab := some r.2 }, r.1.map fun addr => (addr, addr))
    | none => (a, none)
  else
    let a1 : Allocator S :=
      match a.slab with
      | some s => { slab := some (pageFree s ptr) }
      | none => a
    let start := ptr
    let e := start >>> (16 + if start &&& MASK_64K = 0 then 0 else 1)
    (a1, some (start, e))

/-- Aligned free `Allocator::mem_free_align` (lib.rs lines 128-141): for
`alignment > 8` it reads the raw pointer back from `ptr - 8` and frees it with
the adjusted size. -/
def mem_free_align {S : Type} (slabDealloc : S → Nat → Option Nat × S) (pageFree : S → Nat → S)
    (a : Allocator S) (mem : Nat → Nat) (ptr size align : Nat) :
    Allocator S × Option (Nat × Nat) :=
  if align ≤ 8 then mem_free slabDealloc pageFree a ptr size
  else
    let orig := mem (ptr - 8)
    mem_free slabDealloc pageFree a orig (size + align - 1 + 8)

/-- The `GlobalAlloc::alloc` entry point (lib.rs lines 192-217): same logic as
`mem_alloc_align` but returning the null pointer `0` on failure. -/
def galloc {S : Type} (slabAlloc pageAlloc : S → Nat → Option Nat × S)
    (a : Allocator S) (mem : Nat → Nat) (size align : Nat) :
    Nat × Allocator S × (Nat → Nat) :=
  if align ≤ 8 then
    match mem_alloc slabAlloc pageAlloc a size with
    | (some p, a1) => (p, a1, mem)
    | (none, a1) => (0, a1, mem)
  else
    let align_1 := align - 1
    let size1 := size + align_1 + 8
    match mem_alloc slabAlloc pageAlloc a size1 with
    | (some p, a1) =>
      let addr := ((p + align_1 + 8) % 2 ^ 64) &&& (MASK64 ^^^ align_1)
      (addr, a1, Function.update mem (addr - 8) p)
    | (none, a1) => (0, a1, mem)

/-! ### Word-level lemmas about the 2-bit-per-node tag encoding -/

theorem land3_lt (x : Nat) : x &&& 3 < 4 :=
  Nat.lt_succ_of_le Nat.and_le_right

theorem get_tag_lt (st : BuddyAlloc) (idx : Nat) : get_tag st idx < 4 :=
  land3_lt _

theorem testBit_three (k : Nat) : (3 : Nat).testBit k = decide (k < 2) := by
  have h : (3 : Nat) = 2 ^ 2 - 1 := rfl
  rw [h, Nat.testBit_two_pow_sub_one]

theorem testBit_lt_four {t : Nat} (ht : t < 4) {k : Nat} (hk : 2 ≤ k) :
    t.testBit k = false := by
  refine Nat.testBit_lt_two_pow (lt_of_lt_of_le ht ?_)
  calc (4 : Nat) = 2 ^ 2 := rfl
    _ ≤ 2 ^ k := Nat.pow_le_pow_right (by omega) hk

theorem eq_of_two_bits {a b : Nat} (ha : a < 4) (hb : b < 4)
    (h : ∀ m, m < 2 → a.testBit m = b.testBit m) : a = b := by
  have h0 := h 0 (by omega)
  have h1 := h 1 (by omega)
  revert h0 h1
  interval_cases a <;> interval_cases b <;> decide

theorem testBit_field (x k m : Nat) (hm : m < 2) :
    ((x >>> k) &&& 3).testBit m = x.testBit (k + m) := by
  rw [Nat.testBit_and, Nat.testBit_shiftRight, testBit_three]
  simp [hm]

theorem word_set_get_self {w t : Nat} (j : Nat) (hj : j < 32) (ht : t < 4) :
    (((w &&& (MASK64 ^^^ (3 <<< (j * 2)))) ||| (t <<< (j * 2))) >>> (j * 2)) &&& 3 = t := by
  refine eq_of_two_bits (land3_lt _) ht fun m hm => ?_
  rw [testBit_field _ _ _ hm, Nat.testBit_or, Nat.testBit_and, Nat.testBit_xor,
    Nat.testBit_shiftLeft, Nat.testBit_shiftLeft]
  have e1 : j * 2 + m - j * 2 = m := by omega
  have e2 : decide (j * 2 ≤ j * 2 + m) = true := by simp
  have e3 : MASK64.testBit (j * 2 + m) = true := by
    unfold MASK64
    rw [Nat.testBit_two_pow_sub_one]
    simp only [decide_eq_true_eq]
    omega
  rw [e1, e2, e3, testBit_three]
  simp [hm]

theorem word_set_get_ne {w t : Nat} (j j' : Nat) (hj : j < 32) (hj' : j' < 32)
    (hne : j ≠ j') (ht : t < 4) :
    (((w &&& (MASK64 ^^^ (3 <<< (j * 2)))) ||| (t <<< (j * 2))) >>> (j' * 2)) &&& 3
      = (w >>> (j' * 2)) &&& 3 := by
  refine eq_of_two_bits (land3_lt _) (land3_lt _) fun m hm => ?_
  rw [testBit_field _ _ _ hm, testBit_field _ _ _ hm, Nat.testBit_or, Nat.testBit_and,
    Nat.testBit_xor, Nat.testBit_shiftLeft, Nat.testBit_shiftLeft]
  have e3 : MASK64.testBit (j' * 2 + m) = true := by
    unfold MASK64
    rw [Nat.testBit_two_pow_sub_one]
    simp only [decide_eq_true_eq]
    omega
  rw [e3]
  by_cases hle : j * 2 ≤ j' * 2 + m
  · have hd : 2 ≤ j' * 2 + m - j * 2 := by omega
    have hm3 : (3 : Nat).testBit (j' * 2 + m - j * 2) = false := by
      rw [testBit_three]
      simp only [decide_eq_false_iff_not]
      omega
    have hmt : t.testBit (j' * 2 + m - j * 2) = false := testBit_lt_four ht hd
    simp [hle, hm3, hmt]
  · simp [hle]

theorem word_set_lt {w t : Nat} (j : Nat) (hj : j < 32) (ht : t < 4) :
    ((w &&& (MASK64 ^^^ (3 <<< (j * 2)))) ||| (t <<< (j * 2))) < 2 ^ 64 := by
  have hsh : ∀ u : Nat, u < 4 → u <<< (j * 2) < 2 ^ 64 := by
    intro u hu
    rw [Nat.shiftLeft_eq]
    calc u * 2 ^ (j * 2) < 4 * 2 ^ (j * 2) := by
          have := Nat.two_pow_pos (j * 2)
          exact (Nat.mul_lt_mul_right this).mpr hu
      _ = 2 ^ (j * 2 + 2) := by ring
      _ ≤ 2 ^ 64 := Nat.pow_le_pow_right (by omega) (by omega)
  refine Nat.or_lt_two_pow ?_ (hsh t ht)
  refine Nat.and_lt_two_pow _ ?_
  refine Nat.xor_lt_two_pow ?_ (hsh 3 (by omega))
  unfold MASK64
  omega

theorem idx_and31_lt (idx : Nat) : idx &&& 31 < 32 := by
  have h : (31 : Nat) = 2 ^ 5 - 1 := rfl
  rw [h, Nat.and_pow_two_sub_one_eq_mod]
  exact Nat.mod_lt _ (by omega)

theorem idx_decompose (idx : Nat) : idx = 32 * (idx >>> 5) + (idx &&& 31) := by
  have h : (31 : Nat) = 2 ^ 5 - 1 := rfl
  rw [h, Nat.and_pow_two_sub_one_eq_mod, Nat.shiftRight_eq_div_pow]
  have := Nat.div_add_mod idx 32
  norm_num
  omega

theorem get_tag_set_tag_self (st : BuddyAlloc) (idx t : Nat) (ht : t < 4) :
    get_tag (set_tag st idx t) idx = t := by
  unfold get_tag set_tag
  simp only [Function.update_same]
  exact word_set_get_self _ (idx_and31_lt idx) ht

theorem get_tag_set_tag_ne (st : BuddyAlloc) {idx idx' : Nat} (t : Nat)
    (hne : idx ≠ idx') (ht : t < 4) :
    get_tag (set_tag st idx t) idx' = get_tag st idx' := by
  unfold get_tag set_tag
  simp only
  by_cases hw : idx' >>> 5 = idx >>> 5
  · rw [hw, Function.update_same]
    have hj : idx &&& 31 ≠ idx' &&& 31 := by
      intro hj
      apply hne
      have h1 := idx_decompose idx
      have h2 := idx_decompose idx'
      omega
    rw [← hw]
    exact word_set_get_ne _ _ (idx_and31_lt idx) (idx_and31_lt idx') hj ht
  · rw [Function.update_noteq hw]

theorem set_tag_min_size (st : BuddyAlloc) (idx t : Nat) :
    (set_tag st idx t).min_size = st.min_size := rfl

theorem set_tag_start (st : BuddyAlloc) (idx t : Nat) :
    (set_tag st idx t).start = st.start := rfl

theorem set_tag_words_lt {st : BuddyAlloc} (idx t : Nat) (ht : t < 4)
    (h : ∀ i, st.bitmap i < 2 ^ 64) : ∀ i, (set_tag st idx t).bitmap i < 2 ^ 64 := by
  intro i
  unfold set_tag
  simp only
  by_cases hw : i = idx >>> 5
  · rw [hw, Function.update_same]
    exact word_set_lt _ (idx_and31_lt idx) ht
  · rw [Function.update_noteq hw]
    exact h i

theorem get_tag_zero_bitmap (msz s0 : Nat) (idx : Nat) :
    get_tag { min_size := msz, start := s0, bitmap := fun _ => 0 } idx = 0 := by
  unfold get_tag
  simp [Nat.zero_shiftRight]

/-! ### Combinatorics of the complete binary tree indexing -/

theorem log2_eq_of {d n : Nat} (h1 : 2 ^ d ≤ n) (h2 : n < 2 ^ (d + 1)) :
    Nat.log2 n = d := by
  rw [Nat.log2_eq_log_two]
  exact Nat.log_eq_of_pow_le_of_lt_pow h1 h2

theorem idxDepth_nodeIdx {d o : Nat} (ho : o < 2 ^ d) : idxDepth (nodeIdx d o) = d := by
  unfold idxDepth nodeIdx
  have hp := Nat.two_pow_pos d
  have hq : 2 ^ (d + 1) = 2 ^ d * 2 := by rw [Nat.pow_succ]
  apply log2_eq_of <;> omega

theorem idxOff_nodeIdx {d o : Nat} (ho : o < 2 ^ d) : idxOff (nodeIdx d o) = o := by
  unfold idxOff
  rw [idxDepth_nodeIdx ho]
  unfold nodeIdx
  have hp := Nat.two_pow_pos d
  omega

theorem pow_idxDepth_le (idx : Nat) : 2 ^ idxDepth idx ≤ idx + 1 := by
  unfold idxDepth
  rw [Nat.log2_eq_log_two]
  exact Nat.pow_log_le_self 2 (by omega)

theorem lt_pow_idxDepth_succ (idx : Nat) : idx + 1 < 2 ^ (idxDepth idx + 1) := by
  unfold idxDepth
  rw [Nat.log2_eq_log_two]
  exact Nat.lt_pow_succ_log_self (by omega) _

theorem nodeIdx_idxDepth_idxOff (idx : Nat) : nodeIdx (idxDepth idx) (idxOff idx) = idx := by
  unfold nodeIdx idxOff
  have h1 := pow_idxDepth_le idx
  have h2 := Nat.two_pow_pos (idxDepth idx)
  omega

theorem idxOff_lt (idx : Nat) : idxOff idx < 2 ^ idxDepth idx := by
  unfold idxOff
  have h1 := pow_idxDepth_le idx
  have h2 := lt_pow_idxDepth_succ idx
  have hq : 2 ^ (idxDepth idx + 1) = 2 ^ idxDepth idx * 2 := by rw [Nat.pow_succ]
  omega

theorem nodeIdx_inj {d o d' o' : Nat} (ho : o < 2 ^ d) (ho' : o' < 2 ^ d')
    (h : nodeIdx d o = nodeIdx d' o') : d = d' ∧ o = o' := by
  have h1 : d = d' := by
    have := idxDepth_nodeIdx ho
    have := idxDepth_nodeIdx ho'
    rw [h] at *
    omega
  subst h1
  unfold nodeIdx at h
  exact ⟨rfl, by omega⟩

theorem get_idx_eq {d o : Nat} (ho : o < 2 ^ d) : get_idx d o = nodeIdx d o := by
  unfold get_idx nodeIdx
  rcases Nat.eq_zero_or_pos d with h | h
  · subst h
    simp at ho ⊢
    omega
  · have : d ≠ 0 := by omega
    simp [this, Nat.one_shiftLeft]

theorem shiftRight_eq_div (a k : Nat) : a >>> k = a / 2 ^ k :=
  Nat.shiftRight_eq_div_pow a k

theorem below_refl (d o : Nat) : below d o d o := by
  unfold below
  simp

theorem below_bound {d o d' o' : Nat} (ho : o < 2 ^ d) (h : below d o d' o') :
    o' < 2 ^ d' := by
  obtain ⟨hle, heq⟩ := h
  rw [shiftRight_eq_div] at heq
  have h1 : o' < 2 ^ d * 2 ^ (d' - d) := by
    rw [← heq] at ho
    exact (Nat.div_lt_iff_lt_mul (Nat.two_pow_pos _)).mp ho
  rwa [← Nat.pow_add, Nat.add_sub_cancel' hle] at h1

theorem below_trans {d1 o1 d2 o2 d3 o3 : Nat} (h1 : below d1 o1 d2 o2)
    (h2 : below d2 o2 d3 o3) : below d1 o1 d3 o3 := by
  obtain ⟨ha, hb⟩ := h1
  obtain ⟨hc, hd⟩ := h2
  refine ⟨le_trans ha hc, ?_⟩
  have : d3 - d1 = (d3 - d2) + (d2 - d1) := by omega
  rw [this, Nat.shiftRight_add, hd, hb]

theorem below_antisymm {d o d' o' : Nat} (h1 : below d o d' o') (h2 : below d' o' d o) :
    d = d' ∧ o = o' := by
  obtain ⟨ha, hb⟩ := h1
  obtain ⟨hc, hd⟩ := h2
  have hdd : d = d' := le_antisymm ha hc
  subst hdd
  simp at hb
  exact ⟨rfl, hb.symm⟩

theorem below_child_cases {d o d' o' : Nat} (h : below d o d' o') (hlt : d < d') :
    below (d + 1) (2 * o) d' o' ∨ below (d + 1) (2 * o + 1) d' o' := by
  obtain ⟨_, heq⟩ := h
  have hΔ : d' - d = (d' - (d + 1)) + 1 := by omega
  rw [hΔ, Nat.shiftRight_add] at heq
  set c := o' >>> (d' - (d + 1)) with hc
  rw [shiftRight_eq_div] at heq
  have : c = 2 * o ∨ c = 2 * o + 1 := by
    have := Nat.div_add_mod c 2
    have : c % 2 < 2 := Nat.mod_lt _ (by omega)
    omega
  rcases this with h | h
  · exact Or.inl ⟨by omega, by rw [← hc, h]⟩
  · exact Or.inr ⟨by omega, by rw [← hc, h]⟩

theorem child_below {d o d' o' b : Nat} (hb : b < 2)
    (h : below (d + 1) (2 * o + b) d' o') : strictBelow d o d' o' := by
  obtain ⟨ha, heq⟩ := h
  refine ⟨⟨by omega, ?_⟩, by omega⟩
  have hΔ : d' - d = (d' - (d + 1)) + 1 := by omega
  rw [hΔ, Nat.shiftRight_add, heq]
  rw [shiftRight_eq_div]
  omega

theorem below_total {d1 o1 d2 o2 d o : Nat} (h1 : below d1 o1 d o)
    (h2 : below d2 o2 d o) (hle : d1 ≤ d2) : below d1 o1 d2 o2 := by
  obtain ⟨ha, hb⟩ := h1
  obtain ⟨hc, hd⟩ := h2
  refine ⟨hle, ?_⟩
  have : d - d1 = (d - d2) + (d2 - d1) := by omega
  rw [this, Nat.shiftRight_add, hd] at hb
  exact hb

theorem heap_shift {DEPTH d : Nat} (msz : Nat) (hd : d ≤ DEPTH) :
    heapBytes DEPTH msz >>> d = 2 ^ (DEPTH - d) * msz := by
  unfold heapBytes
  rw [Nat.one_shiftLeft, shiftRight_eq_div]
  have : 2 ^ DEPTH = 2 ^ d * 2 ^ (DEPTH - d) := by
    rw [← Nat.pow_add, Nat.add_sub_cancel' hd]
  rw [this, Nat.mul_assoc, Nat.mul_div_cancel_left _ (Nat.two_pow_pos d)]

theorem heap_shift_succ (DEPTH msz d : Nat) :
    (heapBytes DEPTH msz >>> d) >>> 1 = heapBytes DEPTH msz >>> (d + 1) := by
  rw [← Nat.shiftRight_add]

theorem block_bounds {DEPTH d1 o1 d2 o2 : Nat} (msz : Nat) (hd2 : d2 ≤ DEPTH)
    (hb : below d1 o1 d2 o2) :
    2 ^ (DEPTH - d1) * msz * o1 ≤ 2 ^ (DEPTH - d2) * msz * o2 ∧
    2 ^ (DEPTH - d2) * msz * (o2 + 1) ≤ 2 ^ (DEPTH - d1) * msz * (o1 + 1) := by
  obtain ⟨hle, heq⟩ := hb
  rw [shiftRight_eq_div] at heq
  set Δ := d2 - d1 with hΔ
  have hsplit : o2 = 2 ^ Δ * o1 + o2 % 2 ^ Δ := by
    conv_lhs => rw [← Nat.div_add_mod o2 (2 ^ Δ)]
    rw [heq]
  have hrem : o2 % 2 ^ Δ < 2 ^ Δ := Nat.mod_lt _ (Nat.two_pow_pos _)
  have hfac : 2 ^ (DEPTH - d2) * 2 ^ Δ = 2 ^ (DEPTH - d1) := by
    rw [← Nat.pow_add]
    congr 1
    omega
  constructor
  · calc 2 ^ (DEPTH - d1) * msz * o1 = 2 ^ (DEPTH - d2) * msz * (2 ^ Δ * o1) := by
          rw [← hfac]; ring
      _ ≤ 2 ^ (DEPTH - d2) * msz * o2 := by
          apply Nat.mul_le_mul_left
          omega
  · calc 2 ^ (DEPTH - d2) * msz * (o2 + 1)
        = 2 ^ (DEPTH - d2) * msz * (2 ^ Δ * o1 + o2 % 2 ^ Δ + 1) := by rw [← hsplit]
      _ ≤ 2 ^ (DEPTH - d2) * msz * (2 ^ Δ * (o1 + 1)) := by
          apply Nat.mul_le_mul_left
          have : 2 ^ Δ * (o1 + 1) = 2 ^ Δ * o1 + 2 ^ Δ := by ring
          omega
      _ = 2 ^ (DEPTH - d1) * msz * (o1 + 1) := by rw [← hfac]; ring

/-! ### The canonical tag map `tagOf` and the reachable-state invariant -/

theorem tagOf_lt (L : Finset (Nat × Nat)) (idx : Nat) : tagOf L idx < 3 := by
  unfold tagOf
  split <;> try split
  all_goals simp [TAG_USED_LEAF, TAG_INNER, TAG_UNUSED]

theorem tagOf_node_leaf_iff {L : Finset (Nat × Nat)} {d o : Nat} (ho : o < 2 ^ d) :
    tagOf L (nodeIdx d o) = TAG_USED_LEAF ↔ (d, o) ∈ L := by
  unfold tagOf
  rw [idxDepth_nodeIdx ho, idxOff_nodeIdx ho]
  split
  · simp_all
  · split <;> simp_all [TAG_USED_LEAF, TAG_INNER, TAG_UNUSED]

theorem tagOf_node_inner_iff {L : Finset (Nat × Nat)} {d o : Nat} (ho : o < 2 ^ d) :
    tagOf L (nodeIdx d o) = TAG_INNER ↔
      ((d, o) ∉ L ∧ ∃ n ∈ L, strictBelow d o n.1 n.2) := by
  unfold tagOf
  rw [idxDepth_nodeIdx ho, idxOff_nodeIdx ho]
  split
  · simp_all [TAG_USED_LEAF, TAG_INNER]
  · split <;> simp_all [TAG_INNER, TAG_UNUSED]

theorem tagOf_node_unused_iff {L : Finset (Nat × Nat)} {d o : Nat} (ho : o < 2 ^ d) :
    tagOf L (nodeIdx d o) = TAG_UNUSED ↔
      ((d, o) ∉ L ∧ ¬ ∃ n ∈ L, strictBelow d o n.1 n.2) := by
  unfold tagOf
  rw [idxDepth_nodeIdx ho, idxOff_nodeIdx ho]
  split
  · simp_all [TAG_USED_LEAF, TAG_UNUSED]
  · split <;> simp_all [TAG_INNER, TAG_UNUSED]

theorem tagOf_empty (idx : Nat) : tagOf ∅ idx = TAG_UNUSED := by
  unfold tagOf
  simp

theorem goodState_init (DEPTH msz s0 : Nat) :
    goodState DEPTH { min_size := msz, start := s0, bitmap := fun _ => 0 } ∅ := by
  refine ⟨⟨by simp, by simp⟩, fun idx => ?_, fun i => Nat.two_pow_pos 64⟩
  rw [get_tag_zero_bitmap, tagOf_empty]
  rfl

theorem goodState_tag_lt3 {DEPTH : Nat} {st : BuddyAlloc} {L : Finset (Nat × Nat)}
    (hg : goodState DEPTH st L) (idx : Nat) : get_tag st idx < 3 := by
  rw [hg.2.1 idx]
  exact tagOf_lt L idx

theorem below_unused_of_goodState {DEPTH : Nat} {st : BuddyAlloc} {L : Finset (Nat × Nat)}
    (hg : goodState DEPTH st L) {d o : Nat} (ho : o < 2 ^ d)
    (hu : get_tag st (nodeIdx d o) = TAG_UNUSED) :
    ∀ d' o', below d o d' o' → get_tag st (nodeIdx d' o') = TAG_UNUSED := by
  intro d' o' hb
  have ho' : o' < 2 ^ d' := below_bound ho hb
  rw [hg.2.1] at hu ⊢
  obtain ⟨hnotin, hnone⟩ := (tagOf_node_unused_iff ho).mp hu
  by_cases heq : d = d'
  · subst heq
    obtain ⟨_, heqo⟩ := hb
    simp at heqo
    subst heqo
    exact (tagOf_node_unused_iff ho).mpr ⟨hnotin, hnone⟩
  · have hsb : strictBelow d o d' o' := ⟨hb, lt_of_le_of_ne hb.1 heq⟩
    refine (tagOf_node_unused_iff ho').mpr ⟨?_, ?_⟩
    · intro hmem
      exact hnone ⟨(d', o'), hmem, hsb⟩
    · rintro ⟨n, hn, hsb'⟩
      have h1 := hsb.2
      have h2 := hsb'.2
      exact hnone ⟨n, hn, ⟨below_trans hsb.1 hsb'.1, by omega⟩⟩

/-- Helper: distinct antichain nodes have distinct block base offsets
(`d1 ≤ d2` case). -/
theorem nodeOff_ne_of_le {DEPTH msz d1 o1 d2 o2 : Nat} (hm : 0 < msz)
    (hle : d1 ≤ d2) (h2d : d2 ≤ DEPTH) (h1o : o1 < 2 ^ d1) (h2o : o2 < 2 ^ d2)
    (hnb : ¬ below d1 o1 d2 o2) :
    2 ^ (DEPTH - d1) * msz * o1 ≠ 2 ^ (DEPTH - d2) * msz * o2 := by
  set c := o2 >>> (d2 - d1) with hc
  have hbc : below d1 c d2 o2 := ⟨hle, rfl⟩
  have hcne : c ≠ o1 := fun h => hnb (h ▸ hbc)
  have hblk := @block_bounds DEPTH _ _ _ _ msz h2d hbc
  have hb1pos : 0 < 2 ^ (DEPTH - d1) * msz := Nat.mul_pos (Nat.two_pow_pos _) hm
  have hb2pos : 0 < 2 ^ (DEPTH - d2) * msz := Nat.mul_pos (Nat.two_pow_pos _) hm
  intro heq
  rcases Nat.lt_or_ge o1 c with h | h
  · have h1 : 2 ^ (DEPTH - d1) * msz * (o1 + 1) ≤ 2 ^ (DEPTH - d1) * msz * c :=
      Nat.mul_le_mul_left _ (by omega)
    have h2 : 2 ^ (DEPTH - d1) * msz * o1 < 2 ^ (DEPTH - d1) * msz * (o1 + 1) := by
      have : 2 ^ (DEPTH - d1) * msz * (o1 + 1) = 2 ^ (DEPTH - d1) * msz * o1 + 2 ^ (DEPTH - d1) * msz := by ring
      omega
    omega
  · have hlt : c < o1 := by omega
    have h1 : 2 ^ (DEPTH - d1) * msz * (c + 1) ≤ 2 ^ (DEPTH - d1) * msz * o1 :=
      Nat.mul_le_mul_left _ (by omega)
    have h2 : 2 ^ (DEPTH - d2) * msz * o2 < 2 ^ (DEPTH - d2) * msz * (o2 + 1) := by
      have : 2 ^ (DEPTH - d2) * msz * (o2 + 1) = 2 ^ (DEPTH - d2) * msz * o2 + 2 ^ (DEPTH - d2) * msz := by ring
      omega
    omega

/-- Distinct members of a well-formed live set have distinct block base
addresses. -/
theorem nodeAddr_inj {DEPTH msz d1 o1 d2 o2 : Nat} (hm : 0 < msz)
    (h1d : d1 ≤ DEPTH) (h1o : o1 < 2 ^ d1) (h2d : d2 ≤ DEPTH) (h2o : o2 < 2 ^ d2)
    (hnb1 : ¬ below d1 o1 d2 o2) (hnb2 : ¬ below d2 o2 d1 o1) :
    2 ^ (DEPTH - d1) * msz * o1 ≠ 2 ^ (DEPTH - d2) * msz * o2 := by
  rcases le_or_lt d1 d2 with h | h
  · exact nodeOff_ne_of_le hm h h2d h1o h2o hnb1
  · exact (nodeOff_ne_of_le hm (by omega) h1d h2o h1o hnb2).symm

/-! ### One-step unfolding equations for the buddy recursion -/

theorem find_mem_eq (DEPTH fuel : Nat) (st : BuddyAlloc) (req bytes depth offset : Nat) :
    find_mem DEPTH (fuel + 1) st req bytes depth offset =
      if bytes < req ∨ DEPTH < depth then some (none, st)
      else if get_tag st (get_idx depth offset) = TAG_USED_LEAF then some (none, st)
      else if get_tag st (get_idx depth offset) = TAG_UNUSED then
        (if req ≤ bytes >>> 1 ∧ depth < DEPTH then
          find_mem DEPTH fuel (set_tag st (get_idx depth offset) TAG_INNER) req (bytes >>> 1)
            (depth + 1) (offset * 2)
        else some (some (st.start + bytes * offset), set_tag st (get_idx depth offset) TAG_USED_LEAF))
      else if get_tag st (get_idx depth offset) = TAG_INNER then
        match find_mem DEPTH fuel st req (bytes >>> 1) (depth + 1) (offset * 2) with
        | some (none, st1) => find_mem DEPTH fuel st1 req (bytes >>> 1) (depth + 1) (offset * 2 + 1)
        | r => r
      else none := rfl

theorem spine_off {offset depth k : Nat} (h : depth + 1 ≤ k) :
    offset * 2 * 2 ^ (k - (depth + 1)) = offset * 2 ^ (k - depth) := by
  have h1 : k - depth = (k - (depth + 1)) + 1 := by omega
  rw [h1, pow_succ]
  ring

theorem spine_off_lt {offset depth k : Nat} (ho : offset < 2 ^ depth) (h : depth ≤ k) :
    offset * 2 ^ (k - depth) < 2 ^ k := by
  have h2 : 2 ^ k = 2 ^ depth * 2 ^ (k - depth) := by
    rw [← pow_add]
    congr 1
    omega
  calc offset * 2 ^ (k - depth) < 2 ^ depth * 2 ^ (k - depth) :=
        (Nat.mul_lt_mul_right (Nat.two_pow_pos _)).mpr ho
    _ = 2 ^ k := h2.symm

theorem spine_below {offset depth k : Nat} (h : depth ≤ k) :
    below depth offset k (offset * 2 ^ (k - depth)) := by
  refine ⟨h, ?_⟩
  rw [shiftRight_eq_div]
  exact Nat.mul_div_cancel offset (Nat.two_pow_pos _)

/-- Allocation from a node whose whole subtree is `UNUSED` always succeeds,
returns the node's own base address, and marks exactly a left spine: the
nodes `(k, offset·2^(k-depth))` for `depth ≤ k < d` become `INNER` and the
final node at depth `d` becomes `USED_LEAF`; nothing else changes. -/
theorem find_mem_unused_aux (DEPTH n : Nat) :
    ∀ st req depth offset,
    DEPTH + 1 - depth ≤ n →
    (∀ i, st.bitmap i < 2 ^ 64) →
    depth ≤ DEPTH → offset < 2 ^ depth →
    (∀ d' o', below depth offset d' o' → get_tag st (nodeIdx d' o') = TAG_UNUSED) →
    req ≤ heapBytes DEPTH st.min_size >>> depth →
    ∃ d st',
      depth ≤ d ∧ d ≤ DEPTH ∧ req ≤ heapBytes DEPTH st.min_size >>> d ∧
      find_mem DEPTH n st req (heapBytes DEPTH st.min_size >>> depth) depth offset
        = some (some (st.start + (heapBytes DEPTH st.min_size >>> depth) * offset), st') ∧
      st'.start = st.start ∧ st'.min_size = st.min_size ∧ (∀ i, st'.bitmap i < 2 ^ 64) ∧
      get_tag st' (nodeIdx d (offset * 2 ^ (d - depth))) = TAG_USED_LEAF ∧
      (∀ k, depth ≤ k → k < d → get_tag st' (nodeIdx k (offset * 2 ^ (k - depth))) = TAG_INNER) ∧
      (∀ idx, idx ≠ nodeIdx d (offset * 2 ^ (d - depth)) →
        (∀ k, depth ≤ k → k < d → idx ≠ nodeIdx k (offset * 2 ^ (k - depth))) →
        get_tag st' idx = get_tag st idx) := by
  induction n with
  | zero =>
    intro st req depth offset hn _ hd _ _ _
    omega
  | succ n ih =>
    intro st req depth offset hn hw hd ho hall hreq
    have hguard : ¬ (heapBytes DEPTH st.min_size >>> depth < req ∨ DEPTH < depth) := by
      omega
    have hidx := get_idx_eq ho
    have htag : get_tag st (get_idx depth offset) = TAG_UNUSED := by
      rw [hidx]
      exact hall _ _ (below_refl _ _)
    have hnleaf : ¬ (get_tag st (get_idx depth offset) = TAG_USED_LEAF) := by
      rw [htag]
      decide
    have hunf := find_mem_eq DEPTH n st req (heapBytes DEPTH st.min_size >>> depth) depth offset
    rw [if_neg hguard, if_neg hnleaf, if_pos htag] at hunf
    by_cases hsplit : req ≤ (heapBytes DEPTH st.min_size >>> depth) >>> 1 ∧ depth < DEPTH
    · rw [if_pos hsplit] at hunf
      set st1 := set_tag st (get_idx depth offset) TAG_INNER with hst1
      have hw1 : ∀ i, st1.bitmap i < 2 ^ 64 := set_tag_words_lt _ _ (by decide) hw
      have hd1 : depth + 1 ≤ DEPTH := hsplit.2
      have ho1 : offset * 2 < 2 ^ (depth + 1) := by
        rw [pow_succ]
        omega
      have hall1 : ∀ d' o', below (depth + 1) (offset * 2) d' o' →
          get_tag st1 (nodeIdx d' o') = TAG_UNUSED := by
        intro d' o' hb
        have hb' : below (depth + 1) (2 * offset + 0) d' o' := by
          rw [Nat.mul_comm offset 2] at hb
          simpa using hb
        have hsb : strictBelow depth offset d' o' := child_below (by omega) hb'
        have ho' : o' < 2 ^ d' := below_bound ho hsb.1
        have hne : get_idx depth offset ≠ nodeIdx d' o' := by
          rw [hidx]
          intro h
          have h3 := nodeIdx_inj ho ho' h
          have h4 := hsb.2
          omega
        rw [hst1, get_tag_set_tag_ne _ _ hne (by decide)]
        exact hall d' o' hsb.1
      have hreq1 : req ≤ heapBytes DEPTH st1.min_size >>> (depth + 1) := by
        rw [set_tag_min_size, ← heap_shift_succ]
        exact hsplit.1
      obtain ⟨d, st', hdd, hdD, hrq, heqrec, hst, hmn, hw', hleaf, hspine, hrest⟩ :=
        ih st1 req (depth + 1) (offset * 2) (by omega) hw1 hd1 ho1 hall1 hreq1
      rw [set_tag_min_size] at hrq hmn
      rw [set_tag_start] at hst
      rw [set_tag_min_size, ← heap_shift_succ, set_tag_start] at heqrec
      have haddr : (heapBytes DEPTH st.min_size >>> depth) >>> 1 * (offset * 2)
          = (heapBytes DEPTH st.min_size >>> depth) * offset := by
        rw [heap_shift_succ, heap_shift st.min_size hd, heap_shift st.min_size hd1]
        have h1 : DEPTH - depth = (DEPTH - (depth + 1)) + 1 := by omega
        rw [h1, pow_succ]
        ring
      rw [haddr] at heqrec
      refine ⟨d, st', by omega, hdD, hrq, ?_, hst, hmn, hw', ?_, ?_, ?_⟩
      · rw [hunf, heqrec]
      · rw [← spine_off hdd]
        exact hleaf
      · intro k hk1 hk2
        rcases Nat.eq_or_lt_of_le hk1 with hk | hk
        · subst hk
          have hksimp : offset * 2 ^ (depth - depth) = offset := by simp
          rw [hksimp]
          have hne1 : nodeIdx depth offset ≠ nodeIdx d (offset * 2 * 2 ^ (d - (depth + 1))) := by
            intro h
            have hv2 : offset * 2 * 2 ^ (d - (depth + 1)) < 2 ^ d := by
              rw [spine_off hdd]
              exact spine_off_lt ho (by omega)
            have h3 := nodeIdx_inj ho hv2 h
            omega
          have hne2 : ∀ k', depth + 1 ≤ k' → k' < d →
              nodeIdx depth offset ≠ nodeIdx k' (offset * 2 * 2 ^ (k' - (depth + 1))) := by
            intro k' hk'1 hk'2 h
            have hv2 : offset * 2 * 2 ^ (k' - (depth + 1)) < 2 ^ k' := by
              rw [spine_off hk'1]
              exact spine_off_lt ho (by omega)
            have h3 := nodeIdx_inj ho hv2 h
            omega
          rw [hrest _ hne1 hne2, hst1, ← hidx]
          exact get_tag_set_tag_self _ _ _ (by decide)
        · have hk' : depth + 1 ≤ k := hk
          rw [← spine_off hk']
          exact hspine k hk' hk2
      · intro idx hneleaf hnespine
        have h1 : idx ≠ nodeIdx d (offset * 2 * 2 ^ (d - (depth + 1))) := by
          rw [spine_off hdd]
          exact hneleaf
        have h2 : ∀ k, depth + 1 ≤ k → k < d →
            idx ≠ nodeIdx k (offset * 2 * 2 ^ (k - (depth + 1))) := by
          intro k hka hkb
          rw [spine_off hka]
          exact hnespine k (by omega) hkb
        rw [hrest idx h1 h2, hst1]
        have hne0 : get_idx depth offset ≠ idx := by
          intro h
          apply hnespine depth (le_refl _) (by omega)
          rw [← h, hidx]
          simp
        exact get_tag_set_tag_ne _ _ hne0 (by decide)
    · rw [if_neg hsplit] at hunf
      refine ⟨depth, set_tag st (get_idx depth offset) TAG_USED_LEAF, le_refl _, hd, hreq,
        hunf, set_tag_start _ _ _, set_tag_min_size _ _ _,
        set_tag_words_lt _ _ (by decide) hw, ?_, ?_, ?_⟩
      · have hksimp : offset * 2 ^ (depth - depth) = offset := by simp
        rw [hksimp, ← hidx]
        exact get_tag_set_tag_self _ _ _ (by decide)
      · intro k hk1 hk2
        omega
      · intro idx hne _
        have hksimp : offset * 2 ^ (depth - depth) = offset := by simp
        rw [hksimp] at hne
        refine get_tag_set_tag_ne _ _ ?_ (by decide)
        rw [hidx]
        exact fun h => hne h.symm

theorem spine_shift {offset depth dI d : Nat} (h1 : depth ≤ dI) (h2 : dI ≤ d) :
    (offset * 2 ^ (d - depth)) >>> (d - dI) = offset * 2 ^ (dI - depth) := by
  rw [shiftRight_eq_div]
  have h3 : d - depth = (dI - depth) + (d - dI) := by omega
  rw [h3, pow_add, ← Nat.mul_assoc]
  exact Nat.mul_div_cancel _ (Nat.two_pow_pos _)

theorem spine_addr {DEPTH depth d offset : Nat} (msz : Nat) (h1 : depth ≤ d) (h2 : d ≤ DEPTH) :
    (heapBytes DEPTH msz >>> depth) * offset
      = (heapBytes DEPTH msz >>> d) * (offset * 2 ^ (d - depth)) := by
  rw [heap_shift msz (by omega), heap_shift msz h2]
  have h3 : DEPTH - depth = (DEPTH - d) + (d - depth) := by omega
  rw [h3, pow_add]
  ring

/-- Allocation at an `UNUSED` node of a canonical state succeeds and produces
the canonical state of the live set extended with the node actually carved
out. -/
theorem find_mem_unused_good (DEPTH fuel : Nat) (st : BuddyAlloc) (L : Finset (Nat × Nat))
    (req depth offset : Nat) (hfuel : DEPTH + 1 - depth ≤ fuel)
    (hg : goodState DEPTH st L) (hd : depth ≤ DEPTH) (ho : offset < 2 ^ depth)
    (hanc : ∀ d' o', strictBelow d' o' depth offset → get_tag st (nodeIdx d' o') = TAG_INNER)
    (htag : get_tag st (nodeIdx depth offset) = TAG_UNUSED)
    (hreq : req ≤ heapBytes DEPTH st.min_size >>> depth) :
    ∃ d o st',
      find_mem DEPTH fuel st req (heapBytes DEPTH st.min_size >>> depth) depth offset
        = some (some (st.start + (heapBytes DEPTH st.min_size >>> depth) * offset), st') ∧
      st'.start = st.start ∧ st'.min_size = st.min_size ∧
      below depth offset d o ∧ d ≤ DEPTH ∧ o < 2 ^ d ∧
      req ≤ heapBytes DEPTH st.min_size >>> d ∧
      st.start + (heapBytes DEPTH st.min_size >>> depth) * offset
        = st.start + (heapBytes DEPTH st.min_size >>> d) * o ∧
      (d, o) ∉ L ∧ goodState DEPTH st' (insert (d, o) L) := by
  have hall := below_unused_of_goodState hg ho htag
  obtain ⟨d, st', hdd, hdD, hrq, heqrec, hst, hmn, hw', hleaf, hspine, hrest⟩ :=
    find_mem_unused_aux DEPTH fuel st req depth offset hfuel
      hg.2.2 hd ho hall hreq
  set oN := offset * 2 ^ (d - depth) with hoN
  have hoNlt : oN < 2 ^ d := spine_off_lt ho hdd
  have hbelN : below depth offset d oN := spine_below hdd
  have htagN : get_tag st (nodeIdx d oN) = TAG_UNUSED := hall _ _ hbelN
  have hNnotL : (d, oN) ∉ L := by
    intro hmem
    have h1 := (hg.2.1 (nodeIdx d oN)).symm.trans htagN
    have h2 := (tagOf_node_leaf_iff hoNlt).mpr hmem
    rw [h2] at h1
    exact absurd h1 (by decide)
  have hspineNotL : ∀ k, depth ≤ k → k ≤ d → (k, offset * 2 ^ (k - depth)) ∉ L := by
    intro k hk1 hk2 hmem
    have hoklt : offset * 2 ^ (k - depth) < 2 ^ k := spine_off_lt ho hk1
    have htg := hall k (offset * 2 ^ (k - depth)) (spine_below hk1)
    have h1 := (hg.2.1 (nodeIdx k (offset * 2 ^ (k - depth)))).symm.trans htg
    have h2 := (tagOf_node_leaf_iff hoklt).mpr hmem
    rw [h2] at h1
    exact absurd h1 (by decide)
  refine ⟨d, oN, st', heqrec, hst, hmn, hbelN, hdD, hoNlt, hrq, ?_, hNnotL, ?_, ?_, ?_⟩
  · rw [spine_addr st.min_size hdd hdD]
  -- wfL of the extended live set
  · constructor
    · intro m hm
      rcases Finset.mem_insert.mp hm with h | h
      · rw [h]
        exact ⟨hdD, hoNlt⟩
      · exact hg.1.1 m h
    · intro m hm m' hm' hne
      rcases Finset.mem_insert.mp hm with h | h
      · subst h
        rcases Finset.mem_insert.mp hm' with h' | h'
        · exact absurd h'.symm hne
        · -- m' ∈ L may not lie below the new leaf
          intro hb
          have hm'v := hg.1.1 m' h'
          have hm'tag := hall m'.1 m'.2 (below_trans hbelN hb)
          have h1 := (hg.2.1 (nodeIdx m'.1 m'.2)).symm.trans hm'tag
          have h2 := (tagOf_node_leaf_iff hm'v.2).mpr h'
          rw [h2] at h1
          exact absurd h1 (by decide)
      · rcases Finset.mem_insert.mp hm' with h' | h'
        · subst h'
          -- the new leaf does not lie below any member
          intro hb
          have hmv := hg.1.1 m h
          rcases le_or_lt m.1 depth with hcmp | hcmp
          · have hbm : below m.1 m.2 depth offset := below_total hb hbelN hcmp
            by_cases heq : m.1 = depth
            · have h5 := hbm.2
              rw [heq, Nat.sub_self, Nat.shiftRight_zero] at h5
              have hmemdo : (depth, offset) ∈ L := by
                have h6 : m = (depth, offset) := Prod.ext heq h5.symm
                rwa [h6] at h
              have h1 := (hg.2.1 (nodeIdx depth offset)).symm.trans htag
              have h2 := (tagOf_node_leaf_iff ho).mpr hmemdo
              rw [h2] at h1
              exact absurd h1 (by decide)
            · have hstrict : strictBelow m.1 m.2 depth offset := ⟨hbm, by omega⟩
              have htg := hanc m.1 m.2 hstrict
              have h1 := (hg.2.1 (nodeIdx m.1 m.2)).symm.trans htg
              have h2 := (tagOf_node_leaf_iff hmv.2).mpr h
              rw [h2] at h1
              exact absurd h1 (by decide)
          · have hbm : below depth offset m.1 m.2 := below_total hbelN hb (by omega)
            have htg := hall m.1 m.2 hbm
            have h1 := (hg.2.1 (nodeIdx m.1 m.2)).symm.trans htg
            have h2 := (tagOf_node_leaf_iff (hg.1.1 m h).2).mpr h
            rw [h2] at h1
            exact absurd h1 (by decide)
        · exact hg.1.2 m h m' h' hne
  -- the tag map of the new state is the canonical map of the extended set
  · intro idx
    have hoI : idxOff idx < 2 ^ idxDepth idx := idxOff_lt idx
    have hidxe : nodeIdx (idxDepth idx) (idxOff idx) = idx := nodeIdx_idxDepth_idxOff idx
    by_cases hA : idx = nodeIdx d oN
    · rw [hA, hleaf]
      exact ((tagOf_node_leaf_iff hoNlt).mpr (Finset.mem_insert_self _ _)).symm
    · by_cases hB : ∃ k, depth ≤ k ∧ k < d ∧ idx = nodeIdx k (offset * 2 ^ (k - depth))
      · obtain ⟨k, hk1, hk2, hkeq⟩ := hB
        have hoklt : offset * 2 ^ (k - depth) < 2 ^ k := spine_off_lt ho hk1
        rw [hkeq, hspine k hk1 hk2]
        refine ((tagOf_node_inner_iff hoklt).mpr ⟨?_, ⟨(d, oN), Finset.mem_insert_self _ _, ?_⟩⟩).symm
        · intro hmem
          rcases Finset.mem_insert.mp hmem with h | h
          · have := (Prod.mk.injEq _ _ _ _).mp h
            omega
          · exact hspineNotL k hk1 (by omega) h
        · exact ⟨⟨by omega, spine_shift hk1 (by omega)⟩, by omega⟩
      · push_neg at hB
        rw [hrest idx hA hB, hg.2.1 idx]
        -- tagOf is unchanged away from the spine
        rw [← hidxe]
        set dI := idxDepth idx
        set oI := idxOff idx
        by_cases hmemL : (dI, oI) ∈ L
        · rw [(tagOf_node_leaf_iff hoI).mpr hmemL,
            ((tagOf_node_leaf_iff hoI).mpr (Finset.mem_insert_of_mem hmemL))]
        · have hmemI : (dI, oI) ∉ insert (d, oN) L := by
            intro hmem
            rcases Finset.mem_insert.mp hmem with h | h
            · apply hA
              rw [← hidxe]
              have h1 := (Prod.mk.injEq _ _ _ _).mp h
              rw [h1.1, h1.2]
            · exact hmemL h
          by_cases hex : ∃ m ∈ L, strictBelow dI oI m.1 m.2
          · obtain ⟨m, hm, hsb⟩ := hex
            rw [(tagOf_node_inner_iff hoI).mpr ⟨hmemL, ⟨m, hm, hsb⟩⟩,
              (tagOf_node_inner_iff hoI).mpr ⟨hmemI, ⟨m, Finset.mem_insert_of_mem hm, hsb⟩⟩]
          · have hexI : ¬ ∃ m ∈ insert (d, oN) L, strictBelow dI oI m.1 m.2 := by
              rintro ⟨m, hm, hsb⟩
              rcases Finset.mem_insert.mp hm with h | h
              · subst h
                -- (dI, oI) would be a strict ancestor of the new leaf
                rcases le_or_lt depth dI with hcmp | hcmp
                · have hbm : below depth offset dI oI := below_total hbelN hsb.1 hcmp
                  have hIspine : oI = offset * 2 ^ (dI - depth) := by
                    have := hsb.1.2
                    rw [hoN, spine_shift hcmp (by exact le_of_lt hsb.2)] at this
                    exact this.symm
                  exact hB dI hcmp hsb.2 (by rw [← hidxe, hIspine])
                · have hbm : below dI oI depth offset := below_total hsb.1 hbelN (by omega)
                  have hstrict : strictBelow dI oI depth offset := ⟨hbm, hcmp⟩
                  have htg := hanc dI oI hstrict
                  have h1 := (hg.2.1 (nodeIdx dI oI)).symm.trans htg
                  have h2 := (tagOf_node_inner_iff hoI).mp h1
                  exact hex h2.2
              · exact hex ⟨m, h, hsb⟩
            rw [(tagOf_node_unused_iff hoI).mpr ⟨hmemL, hex⟩,
              (tagOf_node_unused_iff hoI).mpr ⟨hmemI, hexI⟩]
  · exact hw'

theorem below_left (depth offset : Nat) : below depth offset (depth + 1) (offset * 2) := by
  refine ⟨by omega, ?_⟩
  have h : depth + 1 - depth = 1 := by omega
  rw [h, shiftRight_eq_div]
  omega

theorem below_right (depth offset : Nat) : below depth offset (depth + 1) (offset * 2 + 1) := by
  refine ⟨by omega, ?_⟩
  have h : depth + 1 - depth = 1 := by omega
  rw [h, shiftRight_eq_div]
  omega

theorem anc_child {depth offset d' o' b : Nat} (hb : b < 2)
    (h : strictBelow d' o' (depth + 1) (offset * 2 + b)) :
    (d' = depth ∧ o' = offset) ∨ strictBelow d' o' depth offset := by
  obtain ⟨⟨hle, hsh⟩, hlt⟩ := h
  have hle' : d' ≤ depth := by omega
  rcases Nat.eq_or_lt_of_le hle' with heq | hlt'
  · left
    have h1 : depth + 1 - d' = 1 := by omega
    rw [h1, shiftRight_eq_div] at hsh
    exact ⟨heq, by omega⟩
  · right
    refine ⟨⟨by omega, ?_⟩, hlt'⟩
    have h1 : depth + 1 - d' = 1 + (depth - d') := by omega
    rw [h1, Nat.shiftRight_add] at hsh
    have h2 : (offset * 2 + b) >>> 1 = offset := by
      rw [shiftRight_eq_div]
      omega
    rwa [h2] at hsh

/-- Main correctness lemma for `find_mem` over canonical states: the call
never panics; on failure the state is returned unchanged and no free block of
sufficient size exists in the subtree; on success the returned address is the
base of a block carved out of the subtree, and the new state is the canonical
state of the extended live set. -/
theorem find_mem_main (DEPTH n : Nat) :
    ∀ st L req depth offset,
    DEPTH + 1 - depth ≤ n →
    goodState DEPTH st L →
    depth ≤ DEPTH → offset < 2 ^ depth →
    (∀ d' o', strictBelow d' o' depth offset → get_tag st (nodeIdx d' o') = TAG_INNER) →
    ∃ r st',
      find_mem DEPTH n st req (heapBytes DEPTH st.min_size >>> depth) depth offset = some (r, st') ∧
      st'.start = st.start ∧ st'.min_size = st.min_size ∧
      (r = none → st' = st ∧ ∀ d o, ¬ availSub DEPTH st req depth offset d o) ∧
      (∀ a, r = some a → ∃ d o,
        below depth offset d o ∧ d ≤ DEPTH ∧ o < 2 ^ d ∧
        req ≤ heapBytes DEPTH st.min_size >>> d ∧
        a = st.start + (heapBytes DEPTH st.min_size >>> d) * o ∧
        (d, o) ∉ L ∧ goodState DEPTH st' (insert (d, o) L)) := by
  induction n with
  | zero =>
    intro st L req depth offset hn _ hd _ _
    omega
  | succ n ih =>
    intro st L req depth offset hn hg hd ho hanc
    have hidx := get_idx_eq ho
    have hunf := find_mem_eq DEPTH n st req (heapBytes DEPTH st.min_size >>> depth) depth offset
    by_cases hguard : heapBytes DEPTH st.min_size >>> depth < req ∨ DEPTH < depth
    · rw [if_pos hguard] at hunf
      refine ⟨none, st, hunf, rfl, rfl, fun _ => ⟨rfl, ?_⟩, fun a ha => by simp at ha⟩
      rintro d o ⟨hbel, hdD, hreq', _, _⟩
      have hmono : heapBytes DEPTH st.min_size >>> d ≤ heapBytes DEPTH st.min_size >>> depth := by
        rw [shiftRight_eq_div, shiftRight_eq_div]
        exact Nat.div_le_div_left (Nat.pow_le_pow_right (by omega) hbel.1) (Nat.two_pow_pos _)
      omega
    · have hreq : req ≤ heapBytes DEPTH st.min_size >>> depth := by omega
      by_cases htUL : get_tag st (get_idx depth offset) = TAG_USED_LEAF
      · rw [if_neg hguard, if_pos htUL] at hunf
        refine ⟨none, st, hunf, rfl, rfl, fun _ => ⟨rfl, ?_⟩, fun a ha => by simp at ha⟩
        rintro d o ⟨hbel, hdD, hreq', hUn, hK⟩
        rw [hidx] at htUL
        by_cases hdeq : d = depth
        · subst hdeq
          have hoeq : o = offset := by
            have h5 := hbel.2
            rwa [Nat.sub_self, Nat.shiftRight_zero] at h5
          subst hoeq
          rw [htUL] at hUn
          exact absurd hUn (by decide)
        · have hk := hK depth (le_refl _) (by have := hbel.1; omega)
          rw [hbel.2, htUL] at hk
          exact absurd hk (by decide)
      · by_cases htUn : get_tag st (get_idx depth offset) = TAG_UNUSED
        · rw [hidx] at htUn
          obtain ⟨d, o, st', heq, hst, hmn, hbel, hdD, holt, hrq, haddr, hnot, hgood⟩ :=
            find_mem_unused_good DEPTH (n + 1) st L req depth offset (by omega) hg (by omega) ho
              hanc htUn hreq
          refine ⟨some (st.start + (heapBytes DEPTH st.min_size >>> depth) * offset), st',
            heq, hst, hmn, fun h => by simp at h, fun a ha => ?_⟩
          have haeq := Option.some.inj ha
          exact ⟨d, o, hbel, hdD, holt, hrq, by rw [← haeq, haddr], hnot, hgood⟩
        · have htIn : get_tag st (get_idx depth offset) = TAG_INNER := by
            have h2 := goodState_tag_lt3 hg (get_idx depth offset)
            simp only [TAG_USED_LEAF] at htUL
            simp only [TAG_UNUSED] at htUn
            simp only [TAG_INNER]
            omega
          rw [if_neg hguard, if_neg htUL, if_neg htUn, if_pos htIn] at hunf
          rw [heap_shift_succ] at hunf
          rw [hidx] at htIn
          have hdlt : depth < DEPTH := by
            have h1 := (hg.2.1 _).symm.trans htIn
            obtain ⟨_, m, hm, hsb⟩ := (tagOf_node_inner_iff ho).mp h1
            have h3 := (hg.1.1 m hm).1
            have h4 := hsb.2
            omega
          have hol : offset * 2 < 2 ^ (depth + 1) := by
            rw [pow_succ]
            omega
          have hancl : ∀ d' o', strictBelow d' o' (depth + 1) (offset * 2) →
              get_tag st (nodeIdx d' o') = TAG_INNER := by
            intro d' o' hsb
            have hsb' : strictBelow d' o' (depth + 1) (offset * 2 + 0) := by
              simpa using hsb
            rcases anc_child (by omega) hsb' with ⟨h1, h2⟩ | h
            · rw [h1, h2, ← hidx]
              rw [hidx]
              exact htIn
            · exact hanc d' o' h
          obtain ⟨r1, st1, heq1, hst1, hmn1, hnone1, hsome1⟩ :=
            ih st L req (depth + 1) (offset * 2) (by omega) hg (by omega) hol hancl
          rw [heq1] at hunf
          cases r1 with
          | some a =>
            have hfin : find_mem DEPTH (n + 1) st req (heapBytes DEPTH st.min_size >>> depth)
                depth offset = some (some a, st1) := hunf.trans rfl
            refine ⟨some a, st1, hfin, hst1, hmn1, fun h => by simp at h, fun b hb => ?_⟩
            obtain ⟨d, o, hbel', hdD', holt', hrq', haddr', hnot', hgood'⟩ := hsome1 a rfl
            have hbeq := Option.some.inj hb
            exact ⟨d, o, below_trans (below_left depth offset) hbel', hdD', holt', hrq',
              by rw [← hbeq, haddr'], hnot', hgood'⟩
          | none =>
            obtain ⟨hst1eq, hnav1⟩ := hnone1 rfl
            have hunf2 : find_mem DEPTH (n + 1) st req (heapBytes DEPTH st.min_size >>> depth)
                depth offset
                = find_mem DEPTH n st1 req (heapBytes DEPTH st.min_size >>> (depth + 1))
                    (depth + 1) (offset * 2 + 1) := hunf.trans rfl
            rw [hst1eq] at hunf2
            have hor : offset * 2 + 1 < 2 ^ (depth + 1) := by
              rw [pow_succ]
              omega
            have hancr : ∀ d' o', strictBelow d' o' (depth + 1) (offset * 2 + 1) →
                get_tag st (nodeIdx d' o') = TAG_INNER := by
              intro d' o' hsb
              rcases anc_child (by omega) hsb with ⟨h1, h2⟩ | h
              · rw [h1, h2]
                exact htIn
              · exact hanc d' o' h
            obtain ⟨r2, st2, heq2, hst2, hmn2, hnone2, hsome2⟩ :=
              ih st L req (depth + 1) (offset * 2 + 1) (by omega) hg (by omega) hor hancr
            have hfin := hunf2.trans heq2
            cases r2 with
            | some a =>
              refine ⟨some a, st2, hfin, hst2, hmn2, fun h => by simp at h, fun b hb => ?_⟩
              obtain ⟨d, o, hbel', hdD', holt', hrq', haddr', hnot', hgood'⟩ := hsome2 a rfl
              have hbeq := Option.some.inj hb
              exact ⟨d, o, below_trans (below_right depth offset) hbel', hdD', holt', hrq',
                by rw [← hbeq, haddr'], hnot', hgood'⟩
            | none =>
              obtain ⟨hst2eq, hnav2⟩ := hnone2 rfl
              rw [hst2eq] at hfin
              refine ⟨none, st, hfin, rfl, rfl, fun _ => ⟨rfl, ?_⟩, fun a ha => by simp at ha⟩
              rintro d o ⟨hbel, hdD, hreq', hUn, hK⟩
              by_cases hdeq : d = depth
              · subst hdeq
                have hoeq : o = offset := by
                  have h5 := hbel.2
                  rwa [Nat.sub_self, Nat.shiftRight_zero] at h5
                subst hoeq
                rw [htIn] at hUn
                exact absurd hUn (by decide)
              · have hdlt2 : depth < d := by
                  have := hbel.1
                  omega
                have hKsub : ∀ k, depth + 1 ≤ k → k < d →
                    get_tag st (nodeIdx k (o >>> (d - k))) = TAG_INNER :=
                  fun k hk1 hk2 => hK k (by omega) hk2
                rcases below_child_cases hbel hdlt2 with h | h
                · rw [Nat.mul_comm 2 offset] at h
                  exact hnav1 d o ⟨h, hdD, hreq', hUn, hKsub⟩
                · rw [Nat.mul_comm 2 offset] at h
                  exact hnav2 d o ⟨h, hdD, hreq', hUn, hKsub⟩

/-! ### Correctness of the free path -/

theorem release_mem_eq (fuel : Nat) (st : BuddyAlloc) (addr bytes depth offset : Nat) :
    release_mem (fuel + 1) st addr bytes depth offset =
      if get_tag st (get_idx depth offset) = TAG_UNUSED then .error "freed unused memory"
      else if get_tag st (get_idx depth offset) = TAG_USED_LEAF then
        (if st.start + bytes * offset = addr then
          .ok (set_tag st (get_idx depth offset) TAG_UNUSED)
         else .error "freed invalid address")
      else if get_tag st (get_idx depth offset) = TAG_INNER then
        (match (if addr < st.start + bytes * offset + (bytes >>> 1) then
                  release_mem fuel st addr (bytes >>> 1) (depth + 1) (offset * 2)
                else release_mem fuel st addr (bytes >>> 1) (depth + 1) (offset * 2 + 1)) with
         | .ok st1 =>
           if get_tag st1 (get_idx (depth + 1) (offset * 2)) = TAG_UNUSED ∧
               get_tag st1 (get_idx (depth + 1) (offset * 2 + 1)) = TAG_UNUSED then
             .ok (set_tag st1 (get_idx depth offset) TAG_UNUSED)
           else .ok st1
         | e => e)
      else .error "unknown tag" := rfl

theorem sibling_not_both {depth offset dn onn : Nat} :
    ¬ (below (depth + 1) (offset * 2) dn onn ∧ below (depth + 1) (offset * 2 + 1) dn onn) := by
  rintro ⟨⟨_, h1⟩, ⟨_, h2⟩⟩
  rw [h1] at h2
  omega

theorem route_left {DEPTH : Nat} (msz : Nat) (hm : 0 < msz) {depth offset dn onn : Nat}
    (hdn : dn ≤ DEPTH) (h : below (depth + 1) (offset * 2) dn onn) :
    (heapBytes DEPTH msz >>> dn) * onn
      < (heapBytes DEPTH msz >>> depth) * offset + ((heapBytes DEPTH msz >>> depth) >>> 1) := by
  have hd1 : depth + 1 ≤ dn := h.1
  have hblk := @block_bounds DEPTH _ _ _ _ msz hdn h
  rw [heap_shift_succ, heap_shift msz (by omega : depth ≤ DEPTH),
    heap_shift msz (by omega : depth + 1 ≤ DEPTH), heap_shift msz hdn]
  have hsplit : 2 ^ (DEPTH - depth) = 2 ^ (DEPTH - (depth + 1)) * 2 := by
    rw [← Nat.pow_succ]
    congr 1
    omega
  have hbn : 0 < 2 ^ (DEPTH - dn) * msz := Nat.mul_pos (Nat.two_pow_pos _) hm
  have h2 := hblk.2
  have hexp : 2 ^ (DEPTH - (depth + 1)) * msz * (offset * 2 + 1)
      = 2 ^ (DEPTH - depth) * msz * offset + 2 ^ (DEPTH - (depth + 1)) * msz := by
    rw [hsplit]
    ring
  rw [hexp] at h2
  have h3 : 2 ^ (DEPTH - dn) * msz * onn < 2 ^ (DEPTH - dn) * msz * (onn + 1) := by
    have : 2 ^ (DEPTH - dn) * msz * (onn + 1) = 2 ^ (DEPTH - dn) * msz * onn + 2 ^ (DEPTH - dn) * msz := by
      ring
    omega
  omega

theorem route_right {DEPTH : Nat} (msz : Nat) {depth offset dn onn : Nat}
    (hdn : dn ≤ DEPTH) (h : below (depth + 1) (offset * 2 + 1) dn onn) :
    ¬ ((heapBytes DEPTH msz >>> dn) * onn
      < (heapBytes DEPTH msz >>> depth) * offset + ((heapBytes DEPTH msz >>> depth) >>> 1)) := by
  have hd1 : depth + 1 ≤ dn := h.1
  have hblk := @block_bounds DEPTH _ _ _ _ msz hdn h
  rw [heap_shift_succ, heap_shift msz (by omega : depth ≤ DEPTH),
    heap_shift msz (by omega : depth + 1 ≤ DEPTH), heap_shift msz hdn]
  have hsplit : 2 ^ (DEPTH - depth) = 2 ^ (DEPTH - (depth + 1)) * 2 := by
    rw [← Nat.pow_succ]
    congr 1
    omega
  have h1 := hblk.1
  have hexp : 2 ^ (DEPTH - (depth + 1)) * msz * (offset * 2 + 1)
      = 2 ^ (DEPTH - depth) * msz * offset + 2 ^ (DEPTH - (depth + 1)) * msz := by
    rw [hsplit]
    ring
  rw [hexp] at h1
  omega

/-- Reduction of `release_mem` at an `INNER` node once the recursive call is
known to succeed. -/
theorem release_mem_inner_ok (fuel : Nat) (st : BuddyAlloc) (addr bytes depth offset : Nat)
    (st1 : BuddyAlloc)
    (ht : get_tag st (get_idx depth offset) = TAG_INNER)
    (hrec : (if addr < st.start + bytes * offset + (bytes >>> 1) then
              release_mem fuel st addr (bytes >>> 1) (depth + 1) (offset * 2)
            else release_mem fuel st addr (bytes >>> 1) (depth + 1) (offset * 2 + 1)) = .ok st1) :
    release_mem (fuel + 1) st addr bytes depth offset =
      if get_tag st1 (get_idx (depth + 1) (offset * 2)) = TAG_UNUSED ∧
          get_tag st1 (get_idx (depth + 1) (offset * 2 + 1)) = TAG_UNUSED then
        .ok (set_tag st1 (get_idx depth offset) TAG_UNUSED)
      else .ok st1 := by
  rw [release_mem_eq, if_neg (by rw [ht]; decide), if_neg (by rw [ht]; decide), if_pos ht, hrec]

/-- Free of a live `USED_LEAF` whose strict ancestors (within the descended
subtree) are all `INNER` succeeds and sets that leaf's tag to `UNUSED`. -/
theorem release_mem_leaf (DEPTH : Nat) (fuel : Nat) :
    ∀ st dn onn depth offset,
    depth ≤ dn → dn ≤ DEPTH → onn < 2 ^ dn → offset < 2 ^ depth →
    below depth offset dn onn →
    0 < st.min_size →
    get_tag st (nodeIdx dn onn) = TAG_USED_LEAF →
    (∀ k, depth ≤ k → k < dn → get_tag st (nodeIdx k (onn >>> (dn - k))) = TAG_INNER) →
    DEPTH + 1 ≤ fuel + depth →
    ∃ st', release_mem fuel st (st.start + (heapBytes DEPTH st.min_size >>> dn) * onn)
        (heapBytes DEPTH st.min_size >>> depth) depth offset = .ok st' ∧
      get_tag st' (nodeIdx dn onn) = TAG_UNUSED := by
  induction fuel with
  | zero =>
    intro st dn onn depth offset h1 h2 _ _ _ _ _ _ hfuel
    omega
  | succ fuel ih =>
    intro st dn onn depth offset hddn hdnD hon hoff hbel hm htagn hanc hfuel
    have hidx := get_idx_eq hoff
    by_cases hdeq : dn = depth
    · subst hdeq
      have hoeq : onn = offset := by
        have h5 := hbel.2
        rwa [Nat.sub_self, Nat.shiftRight_zero] at h5
      subst hoeq
      rw [release_mem_eq, hidx, htagn]
      rw [if_neg (by decide), if_pos rfl, if_pos rfl]
      exact ⟨_, rfl, get_tag_set_tag_self _ _ _ (by decide)⟩
    · have hdlt : depth < dn := by omega
      have htpar : get_tag st (get_idx depth offset) = TAG_INNER := by
        rw [hidx]
        have hk := hanc depth (le_refl _) hdlt
        rwa [hbel.2] at hk
      have hne : get_idx depth offset ≠ nodeIdx dn onn := by
        rw [hidx]
        intro h
        have h3 := nodeIdx_inj hoff hon h
        omega
      have hanc1 : ∀ k, depth + 1 ≤ k → k < dn →
          get_tag st (nodeIdx k (onn >>> (dn - k))) = TAG_INNER :=
        fun k hk1 hk2 => hanc k (by omega) hk2
      rcases below_child_cases hbel hdlt with hch | hch
      · rw [Nat.mul_comm 2 offset] at hch
        have hroute := @route_left DEPTH st.min_size hm _ _ _ _ hdnD hch
        have hoff1 : offset * 2 < 2 ^ (depth + 1) := by
          rw [pow_succ]
          omega
        obtain ⟨st1, heq1, htag1⟩ :=
          ih st dn onn (depth + 1) (offset * 2) hch.1 hdnD hon hoff1 hch hm htagn hanc1 (by omega)
        have hrec : (if st.start + (heapBytes DEPTH st.min_size >>> dn) * onn
              < st.start + (heapBytes DEPTH st.min_size >>> depth) * offset
                + ((heapBytes DEPTH st.min_size >>> depth) >>> 1) then
            release_mem fuel st (st.start + (heapBytes DEPTH st.min_size >>> dn) * onn)
              ((heapBytes DEPTH st.min_size >>> depth) >>> 1) (depth + 1) (offset * 2)
          else release_mem fuel st (st.start + (heapBytes DEPTH st.min_size >>> dn) * onn)
              ((heapBytes DEPTH st.min_size >>> depth) >>> 1) (depth + 1) (offset * 2 + 1))
            = .ok st1 := by
          rw [if_pos (by omega), heap_shift_succ]
          exact heq1
        rw [release_mem_inner_ok fuel st _ _ depth offset st1 htpar hrec]
        by_cases hco : get_tag st1 (get_idx (depth + 1) (offset * 2)) = TAG_UNUSED ∧
            get_tag st1 (get_idx (depth + 1) (offset * 2 + 1)) = TAG_UNUSED
        · rw [if_pos hco]
          refine ⟨_, rfl, ?_⟩
          rw [get_tag_set_tag_ne _ _ hne (by decide)]
          exact htag1
        · rw [if_neg hco]
          exact ⟨st1, rfl, htag1⟩
      · rw [Nat.mul_comm 2 offset] at hch
        have hroute := @route_right DEPTH st.min_size _ _ _ _ hdnD hch
        have hoff1 : offset * 2 + 1 < 2 ^ (depth + 1) := by
          rw [pow_succ]
          omega
        obtain ⟨st1, heq1, htag1⟩ :=
          ih st dn onn (depth + 1) (offset * 2 + 1) hch.1 hdnD hon hoff1 hch hm htagn hanc1 (by omega)
        have hrec : (if st.start + (heapBytes DEPTH st.min_size >>> dn) * onn
              < st.start + (heapBytes DEPTH st.min_size >>> depth) * offset
                + ((heapBytes DEPTH st.min_size >>> depth) >>> 1) then
            release_mem fuel st (st.start + (heapBytes DEPTH st.min_size >>> dn) * onn)
              ((heapBytes DEPTH st.min_size >>> depth) >>> 1) (depth + 1) (offset * 2)
          else release_mem fuel st (st.start + (heapBytes DEPTH st.min_size >>> dn) * onn)
              ((heapBytes DEPTH st.min_size >>> depth) >>> 1) (depth + 1) (offset * 2 + 1))
            = .ok st1 := by
          rw [if_neg (by omega), heap_shift_succ]
          exact heq1
        rw [release_mem_inner_ok fuel st _ _ depth offset st1 htpar hrec]
        by_cases hco : get_tag st1 (get_idx (depth + 1) (offset * 2)) = TAG_UNUSED ∧
            get_tag st1 (get_idx (depth + 1) (offset * 2 + 1)) = TAG_UNUSED
        · rw [if_pos hco]
          refine ⟨_, rfl, ?_⟩
          rw [get_tag_set_tag_ne _ _ hne (by decide)]
          exact htag1
        · rw [if_neg hco]
          exact ⟨st1, rfl, htag1⟩

theorem tagOf_erase_eq {L : Finset (Nat × Nat)} {dn onn : Nat} (idx : Nat)
    (h : ¬ below (idxDepth idx) (idxOff idx) dn onn) :
    tagOf (L.erase (dn, onn)) idx = tagOf L idx := by
  unfold tagOf
  have hmem : ((idxDepth idx, idxOff idx) ∈ L.erase (dn, onn))
      ↔ ((idxDepth idx, idxOff idx) ∈ L) := by
    rw [Finset.mem_erase]
    constructor
    · exact And.right
    · intro hm
      refine ⟨fun he => ?_, hm⟩
      apply h
      rw [Prod.mk.injEq] at he
      rw [he.1, he.2]
      exact below_refl _ _
  have hex : (∃ n ∈ L.erase (dn, onn), strictBelow (idxDepth idx) (idxOff idx) n.1 n.2)
      ↔ (∃ n ∈ L, strictBelow (idxDepth idx) (idxOff idx) n.1 n.2) := by
    constructor
    · rintro ⟨m, hm, hs⟩
      exact ⟨m, (Finset.mem_erase.mp hm).2, hs⟩
    · rintro ⟨m, hm, hs⟩
      refine ⟨m, Finset.mem_erase.mpr ⟨fun he => ?_, hm⟩, hs⟩
      apply h
      rw [he] at hs
      exact hs.1
  simp only [hmem, hex]

theorem member_below_of_tagOf_ne {L : Finset (Nat × Nat)} {dI oI : Nat} (ho : oI < 2 ^ dI)
    (h : tagOf L (nodeIdx dI oI) ≠ TAG_UNUSED) :
    ∃ m ∈ L, below dI oI m.1 m.2 := by
  by_cases hm : (dI, oI) ∈ L
  · exact ⟨(dI, oI), hm, below_refl _ _⟩
  · by_cases hex : ∃ m ∈ L, strictBelow dI oI m.1 m.2
    · obtain ⟨m, hmm, hs⟩ := hex
      exact ⟨m, hmm, hs.1⟩
    · exact absurd ((tagOf_node_unused_iff ho).mpr ⟨hm, hex⟩) h

theorem no_member_below_of_unused {L : Finset (Nat × Nat)} {dI oI : Nat} (ho : oI < 2 ^ dI)
    (h : tagOf L (nodeIdx dI oI) = TAG_UNUSED) :
    ∀ m ∈ L, ¬ below dI oI m.1 m.2 := by
  intro m hm hb
  obtain ⟨hnot, hnone⟩ := (tagOf_node_unused_iff ho).mp h
  by_cases heq : dI = m.1
  · have h5 := hb.2
    rw [← heq, Nat.sub_self, Nat.shiftRight_zero] at h5
    apply hnot
    have : m = (dI, oI) := by
      cases m
      simp_all
    rwa [this] at hm
  · exact hnone ⟨m, hm, ⟨hb, lt_of_le_of_ne hb.1 heq⟩⟩

theorem wfL_erase {DEPTH : Nat} {L : Finset (Nat × Nat)} (n : Nat × Nat) (h : wfL DEPTH L) :
    wfL DEPTH (L.erase n) :=
  ⟨fun m hm => h.1 m (Finset.mem_of_mem_erase hm),
   fun m hm m' hm' hne => h.2 m (Finset.mem_of_mem_erase hm) m' (Finset.mem_of_mem_erase hm') hne⟩

theorem no_strict_below_member {DEPTH : Nat} {L : Finset (Nat × Nat)} (hw : wfL DEPTH L)
    {n : Nat × Nat} (hn : n ∈ L) : ∀ m ∈ L, ¬ strictBelow n.1 n.2 m.1 m.2 := by
  intro m hm hs
  have hne : n ≠ m := by
    intro he
    rw [he] at hs
    have := hs.2
    omega
  exact hw.2 n hn m hm hne hs.1

theorem tagOf_parent_inner {DEPTH : Nat} {L : Finset (Nat × Nat)} (hw : wfL DEPTH L)
    {dn onn depth offset : Nat}
    (hmem : (dn, onn) ∈ L) (hbel : below depth offset dn onn) (hdlt : depth < dn)
    (hoff : offset < 2 ^ depth) :
    tagOf L (nodeIdx depth offset) = TAG_INNER := by
  refine (tagOf_node_inner_iff hoff).mpr ⟨?_, ⟨(dn, onn), hmem, ⟨hbel, hdlt⟩⟩⟩
  intro hp
  exact no_strict_below_member hw hp (dn, onn) hmem ⟨hbel, hdlt⟩

/-- After the recursive free has rewritten one child's subtree, every node
strictly below the current one already carries the canonical tag of the
shrunken live set, and the current node's own tag is untouched. -/
theorem release_strict (DEPTH : Nat) {st st1 : BuddyAlloc} {L : Finset (Nat × Nat)}
    {dn onn depth offset cb : Nat}
    (hg : goodState DEPTH st L) (hoff : offset < 2 ^ depth)
    (hcb : cb = offset * 2 ∨ cb = offset * 2 + 1)
    (hch : below (depth + 1) cb dn onn)
    (hin1 : ∀ idx, below (depth + 1) cb (idxDepth idx) (idxOff idx) →
      get_tag st1 idx = tagOf (L.erase (dn, onn)) idx)
    (hout1 : ∀ idx, ¬ below (depth + 1) cb (idxDepth idx) (idxOff idx) →
      get_tag st1 idx = get_tag st idx) :
    (∀ idx, strictBelow depth offset (idxDepth idx) (idxOff idx) →
      get_tag st1 idx = tagOf (L.erase (dn, onn)) idx) ∧
    (∀ idx, ¬ below depth offset (idxDepth idx) (idxOff idx) →
      get_tag st1 idx = get_tag st idx) ∧
    get_tag st1 (nodeIdx depth offset) = get_tag st (nodeIdx depth offset) := by
  have hchP : below depth offset (depth + 1) cb := by
    rcases hcb with h | h
    · rw [h]
      exact below_left depth offset
    · rw [h]
      exact below_right depth offset
  refine ⟨?_, ?_, ?_⟩
  · intro idx hsb
    rcases below_child_cases hsb.1 hsb.2 with h | h
    all_goals rw [Nat.mul_comm 2 offset] at h
    · rcases hcb with hc | hc
      · exact hin1 idx (hc ▸ h)
      · rw [hout1 idx (by rw [hc]; exact fun hx => sibling_not_both ⟨h, hx⟩), hg.2.1]
        rw [← nodeIdx_idxDepth_idxOff idx]
        refine (tagOf_erase_eq _ ?_).symm
        intro hb
        rw [idxDepth_nodeIdx (idxOff_lt idx), idxOff_nodeIdx (idxOff_lt idx)] at hb
        exact sibling_not_both ⟨below_trans h hb, hc ▸ hch⟩
    · rcases hcb with hc | hc
      · rw [hout1 idx (by rw [hc]; exact fun hx => sibling_not_both ⟨hx, h⟩), hg.2.1]
        rw [← nodeIdx_idxDepth_idxOff idx]
        refine (tagOf_erase_eq _ ?_).symm
        intro hb
        rw [idxDepth_nodeIdx (idxOff_lt idx), idxOff_nodeIdx (idxOff_lt idx)] at hb
        exact sibling_not_both ⟨hc ▸ hch, below_trans h hb⟩
      · exact hin1 idx (hc ▸ h)
  · intro idx hnb
    refine hout1 idx fun hb => hnb ?_
    exact below_trans hchP hb
  · refine hout1 (nodeIdx depth offset) ?_
    rw [idxDepth_nodeIdx hoff, idxOff_nodeIdx hoff]
    intro hb
    have h1 := hb.1
    omega

/-- The coalescing step at an `INNER` node: combining the recursion's result
with the both-children-`UNUSED` check yields exactly the canonical tags of the
shrunken live set throughout the subtree. -/
theorem release_finish (DEPTH : Nat) {st st1 : BuddyAlloc} {L : Finset (Nat × Nat)}
    {dn onn depth offset : Nat}
    (hg : goodState DEPTH st L) (hmem : (dn, onn) ∈ L) (hbel : below depth offset dn onn)
    (hoff : offset < 2 ^ depth) (hdlt : depth < dn)
    (hst1 : st1.start = st.start) (hmn1 : st1.min_size = st.min_size)
    (hw1 : ∀ i, st1.bitmap i < 2 ^ 64)
    (hstrict : ∀ idx, strictBelow depth offset (idxDepth idx) (idxOff idx) →
      get_tag st1 idx = tagOf (L.erase (dn, onn)) idx)
    (hout : ∀ idx, ¬ below depth offset (idxDepth idx) (idxOff idx) →
      get_tag st1 idx = get_tag st idx)
    (hpar : get_tag st1 (nodeIdx depth offset) = get_tag st (nodeIdx depth offset)) :
    ∃ st2,
      (if get_tag st1 (get_idx (depth + 1) (offset * 2)) = TAG_UNUSED ∧
          get_tag st1 (get_idx (depth + 1) (offset * 2 + 1)) = TAG_UNUSED then
        Except.ok (set_tag st1 (get_idx depth offset) TAG_UNUSED)
      else (Except.ok st1 : Except String BuddyAlloc)) = Except.ok st2 ∧
      st2.start = st.start ∧ st2.min_size = st.min_size ∧ (∀ i, st2.bitmap i < 2 ^ 64) ∧
      (∀ idx, below depth offset (idxDepth idx) (idxOff idx) →
        get_tag st2 idx = tagOf (L.erase (dn, onn)) idx) ∧
      (∀ idx, ¬ below depth offset (idxDepth idx) (idxOff idx) →
        get_tag st2 idx = get_tag st idx) := by
  have hidx := get_idx_eq hoff
  have hoffL : offset * 2 < 2 ^ (depth + 1) := by
    rw [pow_succ]
    omega
  have hoffR : offset * 2 + 1 < 2 ^ (depth + 1) := by
    rw [pow_succ]
    omega
  have hidxL := get_idx_eq hoffL
  have hidxR := get_idx_eq hoffR
  have hsbL : strictBelow depth offset (depth + 1) (offset * 2) :=
    child_below (b := 0) (by omega)
      (by have h0 : 2 * offset + 0 = offset * 2 := by ring
          rw [h0]; exact below_refl _ _)
  have hsbR : strictBelow depth offset (depth + 1) (offset * 2 + 1) :=
    child_below (b := 1) (by omega)
      (by have h0 : 2 * offset + 1 = offset * 2 + 1 := by ring
          rw [h0]; exact below_refl _ _)
  have hcl : get_tag st1 (nodeIdx (depth + 1) (offset * 2))
      = tagOf (L.erase (dn, onn)) (nodeIdx (depth + 1) (offset * 2)) := by
    refine hstrict _ ?_
    rw [idxDepth_nodeIdx hoffL, idxOff_nodeIdx hoffL]
    exact hsbL
  have hcr : get_tag st1 (nodeIdx (depth + 1) (offset * 2 + 1))
      = tagOf (L.erase (dn, onn)) (nodeIdx (depth + 1) (offset * 2 + 1)) := by
    refine hstrict _ ?_
    rw [idxDepth_nodeIdx hoffR, idxOff_nodeIdx hoffR]
    exact hsbR
  have hparNotL : (depth, offset) ∉ L := by
    intro hp
    exact no_strict_below_member hg.1 hp (dn, onn) hmem ⟨hbel, hdlt⟩
  have hparNotE : (depth, offset) ∉ L.erase (dn, onn) :=
    fun hp => hparNotL (Finset.mem_of_mem_erase hp)
  have hparI : get_tag st1 (nodeIdx depth offset) = TAG_INNER := by
    rw [hpar, hg.2.1]
    exact tagOf_parent_inner hg.1 hmem hbel hdlt hoff
  have hstrict2 : ∀ idx, below depth offset (idxDepth idx) (idxOff idx) →
      idx ≠ nodeIdx depth offset →
      get_tag st1 idx = tagOf (L.erase (dn, onn)) idx := by
    intro idx hbI hne
    refine hstrict idx ⟨hbI, ?_⟩
    rcases Nat.eq_or_lt_of_le hbI.1 with heq | hlt
    · exfalso
      apply hne
      have h5 := hbI.2
      rw [← heq, Nat.sub_self, Nat.shiftRight_zero] at h5
      rw [← nodeIdx_idxDepth_idxOff idx, ← heq, h5]
    · exact hlt
  have hne_of_nb : ∀ idx, ¬ below depth offset (idxDepth idx) (idxOff idx) →
      idx ≠ nodeIdx depth offset := by
    intro idx hnb heq
    apply hnb
    rw [heq, idxDepth_nodeIdx hoff, idxOff_nodeIdx hoff]
    exact below_refl _ _
  by_cases hco : get_tag st1 (get_idx (depth + 1) (offset * 2)) = TAG_UNUSED ∧
      get_tag st1 (get_idx (depth + 1) (offset * 2 + 1)) = TAG_UNUSED
  · rw [if_pos hco]
    refine ⟨set_tag st1 (get_idx depth offset) TAG_UNUSED, rfl, ?_, ?_, ?_, ?_, ?_⟩
    · rw [set_tag_start, hst1]
    · rw [set_tag_min_size, hmn1]
    · exact set_tag_words_lt _ _ (by decide) hw1
    · intro idx hbI
      have hclU : tagOf (L.erase (dn, onn)) (nodeIdx (depth + 1) (offset * 2)) = TAG_UNUSED := by
        rw [← hcl, ← hidxL]
        exact hco.1
      have hcrU : tagOf (L.erase (dn, onn)) (nodeIdx (depth + 1) (offset * 2 + 1)) = TAG_UNUSED := by
        rw [← hcr, ← hidxR]
        exact hco.2
      by_cases hidq : idx = nodeIdx depth offset
      · have hsel : get_tag (set_tag st1 (get_idx depth offset) TAG_UNUSED)
            (nodeIdx depth offset) = TAG_UNUSED := by
          rw [hidx]
          exact get_tag_set_tag_self _ _ _ (by decide)
        rw [hidq, hsel]
        refine ((tagOf_node_unused_iff hoff).mpr ⟨hparNotE, ?_⟩).symm
        rintro ⟨m, hm, hsm⟩
        have hmv := hg.1.1 m (Finset.mem_of_mem_erase hm)
        rcases below_child_cases hsm.1 hsm.2 with h | h
        all_goals rw [Nat.mul_comm 2 offset] at h
        · exact no_member_below_of_unused hoffL hclU m hm h
        · exact no_member_below_of_unused hoffR hcrU m hm h
      · rw [get_tag_set_tag_ne _ _ (by rw [hidx]; exact fun h => hidq h.symm) (by decide)]
        exact hstrict2 idx hbI hidq
    · intro idx hnb
      rw [get_tag_set_tag_ne _ _ (by rw [hidx]; exact fun h => (hne_of_nb idx hnb) h.symm) (by decide)]
      exact hout idx hnb
  · rw [if_neg hco]
    refine ⟨st1, rfl, hst1, hmn1, hw1, ?_, hout⟩
    intro idx hbI
    by_cases hidq : idx = nodeIdx depth offset
    · rw [hidq, hparI]
      refine ((tagOf_node_inner_iff hoff).mpr ⟨hparNotE, ?_⟩).symm
      rcases not_and_or.mp hco with hA | hB
      · have hclN : tagOf (L.erase (dn, onn)) (nodeIdx (depth + 1) (offset * 2)) ≠ TAG_UNUSED := by
          rw [← hcl, ← hidxL]
          exact hA
        obtain ⟨m, hm, hmb⟩ := member_below_of_tagOf_ne hoffL hclN
        refine ⟨m, hm, ?_⟩
        refine child_below (b := 0) (by omega) ?_
        rw [Nat.mul_comm offset 2] at hmb
        simpa using hmb
      · have hcrN : tagOf (L.erase (dn, onn)) (nodeIdx (depth + 1) (offset * 2 + 1)) ≠ TAG_UNUSED := by
          rw [← hcr, ← hidxR]
          exact hB
        obtain ⟨m, hm, hmb⟩ := member_below_of_tagOf_ne hoffR hcrN
        refine ⟨m, hm, ?_⟩
        refine child_below (b := 1) (by omega) ?_
        rw [Nat.mul_comm offset 2] at hmb
        exact hmb
    · exact hstrict2 idx hbI hidq

/-- Main correctness lemma for `release_mem` over canonical states: freeing
the base address of a live block succeeds and produces, throughout the
descended subtree, exactly the canonical tags of the live set without that
block; nothing outside the subtree changes. -/
theorem release_mem_main (DEPTH : Nat) (fuel : Nat) :
    ∀ st L dn onn depth offset,
    goodState DEPTH st L →
    (dn, onn) ∈ L →
    below depth offset dn onn →
    offset < 2 ^ depth →
    0 < st.min_size →
    DEPTH + 1 ≤ fuel + depth →
    ∃ st',
      release_mem fuel st (st.start + (heapBytes DEPTH st.min_size >>> dn) * onn)
        (heapBytes DEPTH st.min_size >>> depth) depth offset = .ok st' ∧
      st'.start = st.start ∧ st'.min_size = st.min_size ∧ (∀ i, st'.bitmap i < 2 ^ 64) ∧
      (∀ idx, below depth offset (idxDepth idx) (idxOff idx) →
        get_tag st' idx = tagOf (L.erase (dn, onn)) idx) ∧
      (∀ idx, ¬ below depth offset (idxDepth idx) (idxOff idx) →
        get_tag st' idx = get_tag st idx) := by
  induction fuel with
  | zero =>
    intro st L dn onn depth offset hg hmem hbel _ _ hfuel
    have hv := hg.1.1 (dn, onn) hmem
    have h1 := hbel.1
    have h2 : dn ≤ DEPTH := hv.1
    omega
  | succ fuel ih =>
    intro st L dn onn depth offset hg hmem hbel hoff hm hfuel
    have hv := hg.1.1 (dn, onn) hmem
    have hdnD : dn ≤ DEPTH := hv.1
    have honn : onn < 2 ^ dn := hv.2
    have hidx := get_idx_eq hoff
    by_cases hdeq : dn = depth
    · subst hdeq
      have hoeq : onn = offset := by
        have h5 := hbel.2
        rwa [Nat.sub_self, Nat.shiftRight_zero] at h5
      subst hoeq
      have htg : get_tag st (get_idx dn onn) = TAG_USED_LEAF := by
        rw [hidx, hg.2.1]
        exact (tagOf_node_leaf_iff hoff).mpr hmem
      rw [release_mem_eq, if_neg (by rw [htg]; decide), if_pos htg, if_pos rfl]
      refine ⟨set_tag st (get_idx dn onn) TAG_UNUSED, rfl, set_tag_start _ _ _,
        set_tag_min_size _ _ _, set_tag_words_lt _ _ (by decide) hg.2.2, ?_, ?_⟩
      · intro idx hbI
        by_cases hidq : idx = nodeIdx dn onn
        · have hsel : get_tag (set_tag st (get_idx dn onn) TAG_UNUSED)
              (nodeIdx dn onn) = TAG_UNUSED := by
            rw [hidx]
            exact get_tag_set_tag_self _ _ _ (by decide)
          rw [hidq, hsel]
          refine ((tagOf_node_unused_iff hoff).mpr ⟨Finset.not_mem_erase _ _, ?_⟩).symm
          rintro ⟨m, hm2, hsm⟩
          exact no_strict_below_member hg.1 hmem m (Finset.mem_of_mem_erase hm2) hsm
        · rw [get_tag_set_tag_ne _ _ (by rw [hidx]; exact fun h => hidq h.symm) (by decide),
            hg.2.1]
          rw [← nodeIdx_idxDepth_idxOff idx]
          refine (tagOf_erase_eq _ ?_).symm
          intro hb
          rw [idxDepth_nodeIdx (idxOff_lt idx), idxOff_nodeIdx (idxOff_lt idx)] at hb
          -- idx would be weakly above and weakly below the freed leaf, hence
          -- equal to it
          have hstr : dn < idxDepth idx := by
            rcases Nat.eq_or_lt_of_le hbI.1 with heq | hlt
            · exfalso
              apply hidq
              have h5 := hbI.2
              rw [← heq, Nat.sub_self, Nat.shiftRight_zero] at h5
              rw [← nodeIdx_idxDepth_idxOff idx, ← heq, h5]
            · exact hlt
          have h6 := hb.1
          omega
      · intro idx hnb
        refine get_tag_set_tag_ne _ _ ?_ (by decide)
        rw [hidx]
        intro h
        apply hnb
        rw [← h, idxDepth_nodeIdx hoff, idxOff_nodeIdx hoff]
        exact below_refl _ _
    · have hdlt : depth < dn := by
        have := hbel.1
        omega
      have htgI : get_tag st (get_idx depth offset) = TAG_INNER := by
        rw [hidx, hg.2.1]
        exact tagOf_parent_inner hg.1 hmem hbel hdlt hoff
      rcases below_child_cases hbel hdlt with hch | hch
      all_goals rw [Nat.mul_comm 2 offset] at hch
      · have hroute := @route_left DEPTH st.min_size hm _ _ _ _ hdnD hch
        have hoffL : offset * 2 < 2 ^ (depth + 1) := by
          rw [pow_succ]
          omega
        obtain ⟨st1, heq1, hst1, hmn1, hw1, hin1, hout1⟩ :=
          ih st L dn onn (depth + 1) (offset * 2) hg hmem hch hoffL hm (by omega)
        have hrec : (if st.start + (heapBytes DEPTH st.min_size >>> dn) * onn
              < st.start + (heapBytes DEPTH st.min_size >>> depth) * offset
                + ((heapBytes DEPTH st.min_size >>> depth) >>> 1) then
            release_mem fuel st (st.start + (heapBytes DEPTH st.min_size >>> dn) * onn)
              ((heapBytes DEPTH st.min_size >>> depth) >>> 1) (depth + 1) (offset * 2)
          else release_mem fuel st (st.start + (heapBytes DEPTH st.min_size >>> dn) * onn)
              ((heapBytes DEPTH st.min_size >>> depth) >>> 1) (depth + 1) (offset * 2 + 1))
            = .ok st1 := by
          rw [if_pos (by omega), heap_shift_succ]
          exact heq1
        rw [release_mem_inner_ok fuel st _ _ depth offset st1 htgI hrec]
        obtain ⟨hstrict, hout, hpar⟩ :=
          release_strict DEPTH hg hoff (Or.inl rfl) hch hin1 hout1
        obtain ⟨st2, hif, hsts, hmns, hws, hin2, hout2⟩ :=
          release_finish DEPTH hg hmem hbel hoff hdlt hst1 hmn1 hw1 hstrict hout hpar
        rw [hif]
        exact ⟨st2, rfl, hsts, hmns, hws, hin2, hout2⟩
      · have hroute := @route_right DEPTH st.min_size _ _ _ _ hdnD hch
        have hoffR : offset * 2 + 1 < 2 ^ (depth + 1) := by
          rw [pow_succ]
          omega
        obtain ⟨st1, heq1, hst1, hmn1, hw1, hin1, hout1⟩ :=
          ih st L dn onn (depth + 1) (offset * 2 + 1) hg hmem hch hoffR hm (by omega)
        have hrec : (if st.start + (heapBytes DEPTH st.min_size >>> dn) * onn
              < st.start + (heapBytes DEPTH st.min_size >>> depth) * offset
                + ((heapBytes DEPTH st.min_size >>> depth) >>> 1) then
            release_mem fuel st (st.start + (heapBytes DEPTH st.min_size >>> dn) * onn)
              ((heapBytes DEPTH st.min_size >>> depth) >>> 1) (depth + 1) (offset * 2)
          else release_mem fuel st (st.start + (heapBytes DEPTH st.min_size >>> dn) * onn)
              ((heapBytes DEPTH st.min_size >>> depth) >>> 1) (depth + 1) (offset * 2 + 1))
            = .ok st1 := by
          rw [if_neg (by omega), heap_shift_succ]
          exact heq1
        rw [release_mem_inner_ok fuel st _ _ depth offset st1 htgI hrec]
        obtain ⟨hstrict, hout, hpar⟩ :=
          release_strict DEPTH hg hoff (Or.inr rfl) hch hin1 hout1
        obtain ⟨st2, hif, hsts, hmns, hws, hin2, hout2⟩ :=
          release_finish DEPTH hg hmem hbel hoff hdlt hst1 hmn1 hw1 hstrict hout hpar
        rw [hif]
        exact ⟨st2, rfl, hsts, hmns, hws, hin2, hout2⟩

/-- Root-level specification of `buddy_alloc` over canonical states. -/
theorem buddy_alloc_spec (DEPTH : Nat) (st : BuddyAlloc) (L : Finset (Nat × Nat)) (req : Nat)
    (hg : goodState DEPTH st L) :
    ∃ r st', buddy_alloc DEPTH st req = some (r, st') ∧
      st'.start = st.start ∧ st'.min_size = st.min_size ∧
      (r = none → st' = st ∧ ∀ d o, ¬ availAt DEPTH st req d o) ∧
      (∀ a, r = some a → ∃ d o, d ≤ DEPTH ∧ o < 2 ^ d ∧
        req ≤ heapBytes DEPTH st.min_size >>> d ∧
        a = st.start + (heapBytes DEPTH st.min_size >>> d) * o ∧
        (d, o) ∉ L ∧ goodState DEPTH st' (insert (d, o) L)) := by
  have hanc : ∀ d' o', strictBelow d' o' 0 0 → get_tag st (nodeIdx d' o') = TAG_INNER := by
    intro d' o' hs
    have := hs.2
    omega
  obtain ⟨r, st', heq, hst, hmn, hnone, hsome⟩ :=
    find_mem_main DEPTH (DEPTH + 1) st L req 0 0 (by omega) hg (by omega) (by omega) hanc
  rw [Nat.shiftRight_zero] at heq
  refine ⟨r, st', heq, hst, hmn, ?_, ?_⟩
  · intro h
    obtain ⟨h1, h2⟩ := hnone h
    refine ⟨h1, ?_⟩
    rintro d o ⟨hdD, holt, hrq, hUn, hK⟩
    refine h2 d o ⟨⟨by omega, ?_⟩, hdD, hrq, hUn, fun k _ hk2 => hK k hk2⟩
    rw [shiftRight_eq_div, Nat.sub_zero]
    exact Nat.div_eq_of_lt holt
  · intro a ha
    obtain ⟨d, o, hbel, hdD, holt, hrq, haddr, hnot, hgood⟩ := hsome a ha
    exact ⟨d, o, hdD, holt, hrq, haddr, hnot, hgood⟩

/-- Root-level specification of `buddy_free` over canonical states: freeing a
live block's base address succeeds and leaves the canonical state of the live
set without that block. -/
theorem buddy_free_spec (DEPTH : Nat) (st : BuddyAlloc) (L : Finset (Nat × Nat))
    (dn onn : Nat) (hg : goodState DEPTH st L) (hmem : (dn, onn) ∈ L)
    (hm : 0 < st.min_size) :
    ∃ st', buddy_free DEPTH st (st.start + (heapBytes DEPTH st.min_size >>> dn) * onn) = .ok st' ∧
      st'.start = st.start ∧ st'.min_size = st.min_size ∧
      goodState DEPTH st' (L.erase (dn, onn)) := by
  have hv := hg.1.1 (dn, onn) hmem
  have hbel : below 0 0 dn onn := by
    refine ⟨by omega, ?_⟩
    rw [shiftRight_eq_div, Nat.sub_zero]
    exact Nat.div_eq_of_lt hv.2
  obtain ⟨st', heq, hst, hmn, hw, hin, _⟩ :=
    release_mem_main DEPTH (DEPTH + 1) st L dn onn 0 0 hg hmem hbel (by omega) hm (by omega)
  rw [Nat.shiftRight_zero] at heq
  refine ⟨st', heq, hst, hmn, wfL_erase _ hg.1, ?_, hw⟩
  intro idx
  refine hin idx ⟨by omega, ?_⟩
  rw [shiftRight_eq_div, Nat.sub_zero]
  exact Nat.div_eq_of_lt (idxOff_lt idx)

/-- In a canonical state no `INNER` node has both children `UNUSED`. -/
theorem goodState_no_both_unused {DEPTH : Nat} {st : BuddyAlloc} {L : Finset (Nat × Nat)}
    (hg : goodState DEPTH st L) :
    ∀ d o, o < 2 ^ d → get_tag st (nodeIdx d o) = TAG_INNER →
      ¬ (get_tag st (nodeIdx (d + 1) (2 * o)) = TAG_UNUSED ∧
         get_tag st (nodeIdx (d + 1) (2 * o + 1)) = TAG_UNUSED) := by
  intro d o ho htg hch
  rw [hg.2.1] at htg
  obtain ⟨_, m, hm, hsb⟩ := (tagOf_node_inner_iff ho).mp htg
  have hoL : 2 * o < 2 ^ (d + 1) := by
    rw [pow_succ]
    omega
  have hoR : 2 * o + 1 < 2 ^ (d + 1) := by
    rw [pow_succ]
    omega
  rcases below_child_cases hsb.1 hsb.2 with h | h
  · have h1 := hg.2.1 (nodeIdx (d + 1) (2 * o))
    rw [hch.1] at h1
    exact no_member_below_of_unused hoL h1.symm m hm h
  · have h1 := hg.2.1 (nodeIdx (d + 1) (2 * o + 1))
    rw [hch.2] at h1
    exact no_member_below_of_unused hoR h1.symm m hm h

/-- A state all of whose 2-bit fields are zero and whose words are 64-bit
values has the all-zeros bitmap. -/
theorem bitmap_zero_of_tags {st : BuddyAlloc} (ht : ∀ idx, get_tag st idx = 0)
    (hw : ∀ i, st.bitmap i < 2 ^ 64) : st.bitmap = fun _ => 0 := by
  funext i
  apply Nat.eq_of_testBit_eq
  intro m
  simp only [Nat.zero_testBit]
  by_cases hm : m < 64
  · have hfield := ht (32 * i + m / 2)
    unfold get_tag at hfield
    have hdiv : (32 * i + m / 2) >>> 5 = i := by
      rw [shiftRight_eq_div]
      omega
    have hmod : (32 * i + m / 2) &&& 31 = m / 2 := by
      rw [show (31 : Nat) = 2 ^ 5 - 1 from rfl, Nat.and_pow_two_sub_one_eq_mod]
      omega
    rw [hdiv, hmod] at hfield
    have hb := congrArg (fun x : Nat => x.testBit (m % 2)) hfield
    simp only at hb
    rw [testBit_field _ _ _ (by omega)] at hb
    have hmm : m / 2 * 2 + m % 2 = m := by omega
    rw [hmm] at hb
    rw [hb]
    simp
  · refine Nat.testBit_lt_two_pow (lt_of_lt_of_le (hw i) ?_)
    exact Nat.pow_le_pow_right (by omega) (by omega)

/-- Invariant of the operation driver: along any successful run the state
stays canonical for a well-formed live set whose block base addresses are
exactly the tracked live list. -/
theorem runOps_inv (DEPTH start0 msz : Nat) (hmz : 0 < msz) (ops : List BOp) :
    ∀ st live L stF liveF,
    goodState DEPTH st L →
    st.start = start0 → st.min_size = msz →
    live.Nodup →
    (∀ a, a ∈ live ↔ ∃ n ∈ L, start0 + (heapBytes DEPTH msz >>> n.1) * n.2 = a) →
    runOps DEPTH st live ops = some (stF, liveF) →
    ∃ LF, goodState DEPTH stF LF ∧ stF.start = start0 ∧ stF.min_size = msz ∧
      liveF.Nodup ∧
      (∀ a, a ∈ liveF ↔ ∃ n ∈ LF, start0 + (heapBytes DEPTH msz >>> n.1) * n.2 = a) := by
  induction ops with
  | nil =>
    intro st live L stF liveF hg hs hm hnd hcorr hrun
    simp only [runOps] at hrun
    obtain ⟨h1, h2⟩ := Prod.mk.inj (Option.some.inj hrun)
    subst h1
    subst h2
    exact ⟨L, hg, hs, hm, hnd, hcorr⟩
  | cons op ops ih =>
    intro st live L stF liveF hg hs hm hnd hcorr hrun
    cases op with
    | alloc req =>
      simp only [runOps] at hrun
      obtain ⟨r, st1, heq, hst1, hmn1, hnone, hsome⟩ := buddy_alloc_spec DEPTH st L req hg
      rw [heq] at hrun
      cases r with
      | none =>
        obtain ⟨hst1eq, _⟩ := hnone rfl
        rw [hst1eq] at hrun
        exact ih st live L stF liveF hg hs hm hnd hcorr hrun
      | some a =>
        obtain ⟨d, o, hdD, holt, hrq, haddr, hnot, hgood⟩ := hsome a rfl
        rw [hs, hm] at haddr
        have hwI := hgood.1
        have hanew : a ∉ live := by
          intro hin
          obtain ⟨n, hn, hna⟩ := (hcorr _).mp hin
          have hnv := hgood.1.1 n (Finset.mem_insert_of_mem hn)
          have hnne : n ≠ (d, o) := fun he => hnot (he ▸ hn)
          have hnb1 := hwI.2 n (Finset.mem_insert_of_mem hn) (d, o)
            (Finset.mem_insert_self _ _) hnne
          have hnb2 := hwI.2 (d, o) (Finset.mem_insert_self _ _) n
            (Finset.mem_insert_of_mem hn) (Ne.symm hnne)
          have hne := @nodeAddr_inj DEPTH _ _ _ _ _ hmz hnv.1 hnv.2 hdD holt hnb1 hnb2
          apply hne
          rw [heap_shift msz hnv.1] at hna
          rw [heap_shift msz hdD] at haddr
          omega
        refine ih st1 (a :: live) (insert (d, o) L) stF liveF hgood
          (hst1.trans hs) (hmn1.trans hm) (List.nodup_cons.mpr ⟨hanew, hnd⟩) ?_ hrun
        intro a2
        constructor
        · intro hin
          rcases List.mem_cons.mp hin with h | h
          · exact ⟨(d, o), Finset.mem_insert_self _ _, by rw [← haddr, h]⟩
          · obtain ⟨n, hn, hna⟩ := (hcorr _).mp h
            exact ⟨n, Finset.mem_insert_of_mem hn, hna⟩
        · rintro ⟨n, hn, hna⟩
          rcases Finset.mem_insert.mp hn with h | h
          · subst h
            rw [← hna, ← haddr]
            exact List.mem_cons_self _ _
          · exact List.mem_cons_of_mem _ ((hcorr _).mpr ⟨n, h, hna⟩)
    | free addr =>
      simp only [runOps] at hrun
      by_cases hlv : addr ∈ live
      · rw [if_pos hlv] at hrun
        obtain ⟨n, hn, hna⟩ := (hcorr _).mp hlv
        obtain ⟨st1, heq, hst1, hmn1, hgood⟩ := buddy_free_spec DEPTH st L n.1 n.2 hg
          (by rw [Prod.mk.eta]; exact hn) (by omega)
        rw [hs, hm] at heq
        rw [hna] at heq
        rw [heq] at hrun
        have hninj : ∀ m ∈ L, m ≠ n →
            start0 + (heapBytes DEPTH msz >>> m.1) * m.2 ≠ addr := by
          intro m hmm hne hma
          have hmv := hg.1.1 m hmm
          have hnv := hg.1.1 n hn
          have hnb1 := hg.1.2 m hmm n hn hne
          have hnb2 := hg.1.2 n hn m hmm (Ne.symm hne)
          have hne2 := @nodeAddr_inj DEPTH _ _ _ _ _ hmz hmv.1 hmv.2 hnv.1 hnv.2 hnb1 hnb2
          apply hne2
          rw [heap_shift msz hmv.1] at hma
          rw [heap_shift msz hnv.1] at hna
          omega
        refine ih st1 (live.erase addr) (L.erase (n.1, n.2)) stF liveF hgood
          (hst1.trans hs) (hmn1.trans hm) (hnd.erase _) ?_ hrun
        intro a2
        constructor
        · intro hin
          obtain ⟨hne, hmem2⟩ := (List.Nodup.mem_erase_iff hnd).mp hin
          obtain ⟨m, hmm, hma⟩ := (hcorr _).mp hmem2
          refine ⟨m, Finset.mem_erase.mpr ⟨?_, hmm⟩, hma⟩
          intro he
          apply hne
          rw [← hma, ← hna]
          rw [he]
        · rintro ⟨m, hmm, hma⟩
          obtain ⟨hmne, hmem2⟩ := Finset.mem_erase.mp hmm
          refine (List.Nodup.mem_erase_iff hnd).mpr ⟨?_, (hcorr _).mpr ⟨m, hmem2, hma⟩⟩
          rw [← hma]
          refine hninj m hmem2 ?_
          intro he
          apply hmne
          rw [he, Prod.mk.eta]
      · rw [if_neg hlv] at hrun
        exact absurd hrun (by simp)

/-! ### Arithmetic characterization of `bitlen`/`clz64` -/

theorem bitlen_zero (fuel : Nat) : bitlen fuel 0 = 0 := by
  cases fuel <;> rfl

theorem bitlen_eq (k : Nat) : ∀ fuel x, k < fuel → 2 ^ k ≤ x → x < 2 ^ (k + 1) →
    bitlen fuel x = k + 1 := by
  induction k with
  | zero =>
    intro fuel x hf h1 h2
    cases fuel with
    | zero => omega
    | succ f =>
      have e0 : (2 : Nat) ^ 0 = 1 := rfl
      have e1 : (2 : Nat) ^ 1 = 2 := rfl
      have hx : x = 1 := by omega
      subst hx
      simp [bitlen, bitlen_zero]
  | succ k ih =>
    intro fuel x hf h1 h2
    cases fuel with
    | zero => omega
    | succ f =>
      have hp : 0 < 2 ^ (k + 1) := Nat.two_pow_pos _
      have hx0 : ¬ x = 0 := by omega
      have hstep : bitlen (f + 1) x = bitlen f (x / 2) + 1 := by
        simp [bitlen, hx0]
      have hb1 : 2 ^ k ≤ x / 2 := by
        rw [Nat.le_div_iff_mul_le (by omega)]
        have h3 : 2 ^ k * 2 = 2 ^ (k + 1) := by rw [Nat.pow_succ]
        omega
      have hb2 : x / 2 < 2 ^ (k + 1) := by
        rw [Nat.div_lt_iff_lt_mul (by omega)]
        have h3 : 2 ^ (k + 1 + 1) = 2 ^ (k + 1) * 2 := Nat.pow_succ 2 (k + 1)
        omega
      rw [hstep, ih f (x / 2) (by omega) hb1 hb2]

theorem bitlen_ge (m : Nat) : ∀ fuel x, m < fuel → 2 ^ m ≤ x → m + 1 ≤ bitlen fuel x := by
  induction m with
  | zero =>
    intro fuel x hf h1
    cases fuel with
    | zero => omega
    | succ f =>
      have e0 : (2 : Nat) ^ 0 = 1 := rfl
      have hx0 : ¬ x = 0 := by omega
      have hstep : bitlen (f + 1) x = bitlen f (x / 2) + 1 := by
        simp [bitlen, hx0]
      rw [hstep]
      omega
  | succ m ih =>
    intro fuel x hf h1
    cases fuel with
    | zero => omega
    | succ f =>
      have hp : 0 < 2 ^ (m + 1) := Nat.two_pow_pos _
      have hx0 : ¬ x = 0 := by omega
      have hstep : bitlen (f + 1) x = bitlen f (x / 2) + 1 := by
        simp [bitlen, hx0]
      have hb1 : 2 ^ m ≤ x / 2 := by
        rw [Nat.le_div_iff_mul_le (by omega)]
        have h3 : 2 ^ m * 2 = 2 ^ (m + 1) := by rw [Nat.pow_succ]
        omega
      have := ih f (x / 2) (by omega) hb1
      rw [hstep]
      omega

theorem clz64_eq {k x : Nat} (hk : k < 64) (h1 : 2 ^ k ≤ x) (h2 : x < 2 ^ (k + 1)) :
    clz64 x = 63 - k := by
  unfold clz64
  rw [bitlen_eq k 64 x hk h1 h2]
  omega

theorem clz64_le {m x : Nat} (hm : m < 64) (h1 : 2 ^ m ≤ x) : clz64 x ≤ 63 - m := by
  unfold clz64
  have := bitlen_ge m 64 x hm h1
  omega

/-- Rounding-down with an inverted low-bit mask: for `x < 2^64`,
`x & ~(2^k - 1)` (with `~` the 64-bit complement) clears the low `k` bits,
i.e. equals `x / 2^k * 2^k`. -/
theorem and_mask_eq (k x : Nat) (hk : k ≤ 64) (hx : x < 2 ^ 64) :
    x &&& (MASK64 ^^^ (2 ^ k - 1)) = x / 2 ^ k * 2 ^ k := by
  have hdiv : x / 2 ^ k * 2 ^ k = (x >>> k) <<< k := by
    rw [Nat.shiftLeft_eq, shiftRight_eq_div]
  rw [hdiv]
  apply Nat.eq_of_testBit_eq
  intro i
  rw [Nat.testBit_and, Nat.testBit_xor, Nat.testBit_shiftLeft, Nat.testBit_shiftRight]
  unfold MASK64
  rw [Nat.testBit_two_pow_sub_one, Nat.testBit_two_pow_sub_one]
  by_cases hik : i < k
  · have h1 : decide (k ≤ i) = false := by
      simp only [decide_eq_false_iff_not]
      omega
    have h2 : decide (i < 64) = true := by
      simp only [decide_eq_true_eq]
      omega
    have h3 : decide (i < k) = true := by
      simp only [decide_eq_true_eq]
      omega
    rw [h1, h2, h3]
    simp
  · by_cases hi64 : i < 64
    · have h1 : decide (k ≤ i) = true := by
        simp only [decide_eq_true_eq]
        omega
      have h2 : decide (i < 64) = true := by
        simp only [decide_eq_true_eq]
        omega
      have h3 : decide (i < k) = false := by
        simp only [decide_eq_false_iff_not]
        omega
      have e : k + (i - k) = i := by omega
      rw [h1, h2, h3, e]
      simp
    · have hxb : x.testBit i = false := by
        refine Nat.testBit_lt_two_pow (lt_of_lt_of_le hx ?_)
        exact Nat.pow_le_pow_right (by omega) (by omega)
      have e : k + (i - k) = i := by omega
      rw [e, hxb]
      simp

/-! ### Claim theorems -/

/-- **C4**: after any well-formed sequence of buddy alloc/free operations
starting from `BuddyAlloc::new`, no `INNER` node of the tree has both children
`UNUSED` (return-path coalescing is complete); and if every allocation has
been freed (the live list is empty), every node is `UNUSED` and the bitmap is
exactly its post-init state. -/
theorem C4_buddy_coalescing (DEPTH start size : Nat) (st0 stF : BuddyAlloc)
    (ops : List BOp) (live : List Nat)
    (hnew : buddy_new DEPTH start size = some st0)
    (hrun : runOps DEPTH st0 [] ops = some (stF, live)) :
    (∀ d o, o < 2 ^ d → get_tag stF (nodeIdx d o) = TAG_INNER →
      ¬ (get_tag stF (nodeIdx (d + 1) (2 * o)) = TAG_UNUSED ∧
         get_tag stF (nodeIdx (d + 1) (2 * o + 1)) = TAG_UNUSED)) ∧
    (live = [] → (∀ idx, get_tag stF idx = TAG_UNUSED) ∧ stF.bitmap = st0.bitmap) := by
  unfold buddy_new at hnew
  by_cases hsz : size = (1 <<< DEPTH) * SIZE_64K
  · rw [if_pos hsz] at hnew
    have hst0 := Option.some.inj hnew
    subst hst0
    have hg0 := goodState_init DEPTH SIZE_64K start
    have hcorr0 : ∀ a, a ∈ ([] : List Nat) ↔
        ∃ n ∈ (∅ : Finset (Nat × Nat)),
          start + (heapBytes DEPTH SIZE_64K >>> n.1) * n.2 = a := by
      simp
    obtain ⟨LF, hgF, hsF, hmF, hndF, hcorrF⟩ :=
      runOps_inv DEPTH start SIZE_64K (by decide) ops _ [] ∅ stF live hg0 rfl rfl
        List.nodup_nil hcorr0 hrun
    refine ⟨fun d o ho ht => goodState_no_both_unused hgF d o ho ht, fun hl => ?_⟩
    subst hl
    have hLF : LF = ∅ := by
      refine Finset.eq_empty_iff_forall_not_mem.mpr fun n hn => ?_
      have h1 := (hcorrF (start + (heapBytes DEPTH SIZE_64K >>> n.1) * n.2)).mpr ⟨n, hn, rfl⟩
      simp at h1
    subst hLF
    have htags : ∀ idx, get_tag stF idx = TAG_UNUSED := by
      intro idx
      rw [hgF.2.1 idx, tagOf_empty]
    refine ⟨htags, ?_⟩
    exact bitmap_zero_of_tags (fun idx => htags idx) hgF.2.2
  · rw [if_neg hsz] at hnew
    exact absurd hnew (by simp)

theorem C4_buddy_coalescing_witness :
    (∀ d o, o < 2 ^ d →
      get_tag (set_tag (set_tag { min_size := SIZE_64K, start := 0, bitmap := fun _ => 0 }
          (get_idx 0 0) TAG_USED_LEAF) (get_idx 0 0) TAG_UNUSED) (nodeIdx d o) = TAG_INNER →
      ¬ (get_tag (set_tag (set_tag { min_size := SIZE_64K, start := 0, bitmap := fun _ => 0 }
            (get_idx 0 0) TAG_USED_LEAF) (get_idx 0 0) TAG_UNUSED)
            (nodeIdx (d + 1) (2 * o)) = TAG_UNUSED ∧
         get_tag (set_tag (set_tag { min_size := SIZE_64K, start := 0, bitmap := fun _ => 0 }
            (get_idx 0 0) TAG_USED_LEAF) (get_idx 0 0) TAG_UNUSED)
            (nodeIdx (d + 1) (2 * o + 1)) = TAG_UNUSED)) ∧
    (([] : List Nat) = [] →
      (∀ idx, get_tag (set_tag (set_tag { min_size := SIZE_64K, start := 0, bitmap := fun _ => 0 }
          (get_idx 0 0) TAG_USED_LEAF) (get_idx 0 0) TAG_UNUSED) idx = TAG_UNUSED) ∧
      (set_tag (set_tag { min_size := SIZE_64K, start := 0, bitmap := fun _ => 0 }
          (get_idx 0 0) TAG_USED_LEAF) (get_idx 0 0) TAG_UNUSED).bitmap
        = ({ min_size := SIZE_64K, start := 0, bitmap := fun _ => 0 } : BuddyAlloc).bitmap) :=
  C4_buddy_coalescing 1 0 131072 _ _ [BOp.alloc 131072, BOp.free 0] [] rfl rfl

/-- **C8**: whenever `buddy_alloc` returns `None`, the allocator state — in
particular the entire bitmap — is exactly as it was before the call. -/
theorem C8_alloc_failure_no_mutation (DEPTH : Nat) (st st' : BuddyAlloc)
    (L : Finset (Nat × Nat)) (req : Nat) (hg : goodState DEPTH st L)
    (hfail : buddy_alloc DEPTH st req = some (none, st')) :
    st'.bitmap = st.bitmap ∧ st' = st := by
  obtain ⟨r, st1, heq, _, _, hnone, _⟩ := buddy_alloc_spec DEPTH st L req hg
  rw [heq] at hfail
  obtain ⟨h1, h2⟩ := Prod.mk.inj (Option.some.inj hfail)
  have h3 := (hnone h1).1
  rw [← h2, h3]
  exact ⟨rfl, rfl⟩

theorem C8_alloc_failure_no_mutation_witness :
    ({ min_size := SIZE_64K, start := 0, bitmap := fun _ => 0 } : BuddyAlloc).bitmap
      = ({ min_size := SIZE_64K, start := 0, bitmap := fun _ => 0 } : BuddyAlloc).bitmap ∧
    ({ min_size := SIZE_64K, start := 0, bitmap := fun _ => 0 } : BuddyAlloc)
      = { min_size := SIZE_64K, start := 0, bitmap := fun _ => 0 } :=
  C8_alloc_failure_no_mutation 1 _ _ ∅ 262144 (goodState_init 1 SIZE_64K 0) rfl

/-- **C5**: every successful `buddy_alloc` returns `start + block_bytes * o`
for a block of `block_bytes = 2^(DEPTH-d) * SIZE_64K` bytes (`d ≤ DEPTH`), a
power-of-two multiple of the 64 KiB page at least the request; the address is
`block_bytes`-aligned relative to the heap base and the block lies inside
`[start, start + heap_size)`; `None` is returned only when no free block of
sufficient size exists; and at an `INNER` node the left child is tried
strictly before the right. -/
theorem C5_alloc_address_shape (DEPTH : Nat) (st : BuddyAlloc)
    (L : Finset (Nat × Nat)) (req : Nat) (hg : goodState DEPTH st L)
    (hmin : st.min_size = SIZE_64K) :
    (∀ a st', buddy_alloc DEPTH st req = some (some a, st') →
      ∃ d o, d ≤ DEPTH ∧ o < 2 ^ d ∧
        a = st.start + 2 ^ (DEPTH - d) * SIZE_64K * o ∧
        req ≤ 2 ^ (DEPTH - d) * SIZE_64K ∧
        st.start ≤ a ∧
        a + 2 ^ (DEPTH - d) * SIZE_64K ≤ st.start + 2 ^ DEPTH * SIZE_64K ∧
        (a - st.start) % (2 ^ (DEPTH - d) * SIZE_64K) = 0) ∧
    (∀ st', buddy_alloc DEPTH st req = some (none, st') →
      ∀ d o, ¬ availAt DEPTH st req d o) ∧
    (∀ fuel bytes depth offset,
      get_tag st (get_idx depth offset) = TAG_INNER →
      ¬ bytes < req → ¬ DEPTH < depth →
      find_mem DEPTH (fuel + 1) st req bytes depth offset =
        match find_mem DEPTH fuel st req (bytes >>> 1) (depth + 1) (offset * 2) with
        | some (none, st1) =>
          find_mem DEPTH fuel st1 req (bytes >>> 1) (depth + 1) (offset * 2 + 1)
        | r => r) := by
  obtain ⟨r, st1, heq, _, _, hnone, hsome⟩ := buddy_alloc_spec DEPTH st L req hg
  refine ⟨?_, ?_, ?_⟩
  · intro a st' hcall
    rw [heq] at hcall
    obtain ⟨h1, h2⟩ := Prod.mk.inj (Option.some.inj hcall)
    obtain ⟨d, o, hdD, holt, hrq, haddr, _, _⟩ := hsome a h1
    rw [heap_shift st.min_size hdD, hmin] at hrq haddr
    refine ⟨d, o, hdD, holt, haddr, hrq, by omega, ?_, ?_⟩
    · have hbb := (@block_bounds DEPTH _ _ _ _ SIZE_64K hdD
        (⟨Nat.zero_le d, ?_⟩ : below 0 0 d o)).2
      · have hD0 : DEPTH - 0 = DEPTH := rfl
        rw [hD0] at hbb
        have hexp : 2 ^ (DEPTH - d) * SIZE_64K * (o + 1)
            = 2 ^ (DEPTH - d) * SIZE_64K * o + 2 ^ (DEPTH - d) * SIZE_64K := by ring
        omega
      · rw [shiftRight_eq_div, Nat.sub_zero]
        exact Nat.div_eq_of_lt holt
    · rw [haddr, Nat.add_sub_cancel_left]
      exact Nat.mul_mod_right _ _
  · intro st' hcall
    rw [heq] at hcall
    obtain ⟨h1, _⟩ := Prod.mk.inj (Option.some.inj hcall)
    exact (hnone h1).2
  · intro fuel bytes depth offset htIn hb hd
    have hguard : ¬ (bytes < req ∨ DEPTH < depth) := not_or.mpr ⟨hb, hd⟩
    rw [find_mem_eq, if_neg hguard, if_neg (by rw [htIn]; decide),
      if_neg (by rw [htIn]; decide), if_pos htIn]

theorem C5_alloc_address_shape_witness :
    (∀ a st', buddy_alloc 1 { min_size := SIZE_64K, start := 0, bitmap := fun _ => 0 } 65536
        = some (some a, st') →
      ∃ d o, d ≤ 1 ∧ o < 2 ^ d ∧
        a = ({ min_size := SIZE_64K, start := 0, bitmap := fun _ => 0 } : BuddyAlloc).start
          + 2 ^ (1 - d) * SIZE_64K * o ∧
        65536 ≤ 2 ^ (1 - d) * SIZE_64K ∧
        ({ min_size := SIZE_64K, start := 0, bitmap := fun _ => 0 } : BuddyAlloc).start ≤ a ∧
        a + 2 ^ (1 - d) * SIZE_64K
          ≤ ({ min_size := SIZE_64K, start := 0, bitmap := fun _ => 0 } : BuddyAlloc).start
            + 2 ^ 1 * SIZE_64K ∧
        (a - ({ min_size := SIZE_64K, start := 0, bitmap := fun _ => 0 } : BuddyAlloc).start)
          % (2 ^ (1 - d) * SIZE_64K) = 0) ∧
    (∀ st', buddy_alloc 1 { min_size := SIZE_64K, start := 0, bitmap := fun _ => 0 } 65536
        = some (none, st') →
      ∀ d o, ¬ availAt 1 { min_size := SIZE_64K, start := 0, bitmap := fun _ => 0 } 65536 d o) ∧
    (∀ fuel bytes depth offset,
      get_tag { min_size := SIZE_64K, start := 0, bitmap := fun _ => 0 }
        (get_idx depth offset) = TAG_INNER →
      ¬ bytes < 65536 → ¬ 1 < depth →
      find_mem 1 (fuel + 1) { min_size := SIZE_64K, start := 0, bitmap := fun _ => 0 }
          65536 bytes depth offset =
        match find_mem 1 fuel { min_size := SIZE_64K, start := 0, bitmap := fun _ => 0 }
            65536 (bytes >>> 1) (depth + 1) (offset * 2) with
        | some (none, st1) => find_mem 1 fuel st1 65536 (bytes >>> 1) (depth + 1) (offset * 2 + 1)
        | r => r) :=
  C5_alloc_address_shape 1 _ ∅ 65536 (goodState_init 1 SIZE_64K 0) rfl

/-- **C7**: `release_mem` panics with "freed unused memory" on reaching an
`UNUSED` node, panics with "freed invalid address" on reaching a `USED_LEAF`
whose block base `start + block_bytes * offset` differs from `addr`, and when
`addr` is the base of a live `USED_LEAF` block (its ancestors `INNER`, as in
every reachable state), `buddy_free` succeeds and sets that node's tag to
`UNUSED`. -/
theorem C7_free_panics_and_success (DEPTH : Nat)
    (st1 : BuddyAlloc) (fuel1 addr1 bytes1 depth1 off1 : Nat)
    (st2 : BuddyAlloc) (fuel2 addr2 bytes2 depth2 off2 : Nat)
    (st3 : BuddyAlloc) (d o : Nat) :
    (get_tag st1 (get_idx depth1 off1) = TAG_UNUSED →
      release_mem (fuel1 + 1) st1 addr1 bytes1 depth1 off1 = .error "freed unused memory") ∧
    (get_tag st2 (get_idx depth2 off2) = TAG_USED_LEAF →
      st2.start + bytes2 * off2 ≠ addr2 →
      release_mem (fuel2 + 1) st2 addr2 bytes2 depth2 off2 = .error "freed invalid address") ∧
    (d ≤ DEPTH → o < 2 ^ d → 0 < st3.min_size →
      get_tag st3 (nodeIdx d o) = TAG_USED_LEAF →
      (∀ k, k < d → get_tag st3 (nodeIdx k (o >>> (d - k))) = TAG_INNER) →
      ∃ st', buddy_free DEPTH st3
          (st3.start + (heapBytes DEPTH st3.min_size >>> d) * o) = .ok st' ∧
        get_tag st' (nodeIdx d o) = TAG_UNUSED) := by
  refine ⟨?_, ?_, ?_⟩
  · intro h1
    rw [release_mem_eq, if_pos h1]
  · intro h2 hne
    rw [release_mem_eq, if_neg (by rw [h2]; decide), if_pos h2, if_neg hne]
  · intro hdD ho hm htag hanc
    have hbel : below 0 0 d o := by
      refine ⟨Nat.zero_le d, ?_⟩
      rw [shiftRight_eq_div, Nat.sub_zero]
      exact Nat.div_eq_of_lt ho
    obtain ⟨st', heq, htg⟩ := release_mem_leaf DEPTH (DEPTH + 1) st3 d o 0 0
      (Nat.zero_le d) hdD ho (by decide) hbel hm htag
      (fun k _ hk => hanc k hk) (by omega)
    rw [Nat.shiftRight_zero] at heq
    exact ⟨st', heq, htg⟩

theorem C7_free_panics_and_success_witness :
    release_mem (0 + 1) { min_size := SIZE_64K, start := 0, bitmap := fun _ => 0 }
      5 131072 0 0 = .error "freed unused memory" ∧
    release_mem (0 + 1) (set_tag { min_size := SIZE_64K, start := 0, bitmap := fun _ => 0 }
      (get_idx 0 0) TAG_USED_LEAF) 7 131072 0 0 = .error "freed invalid address" ∧
    ∃ st', buddy_free 1 (set_tag { min_size := SIZE_64K, start := 0, bitmap := fun _ => 0 }
        (get_idx 0 0) TAG_USED_LEAF)
        ((set_tag { min_size := SIZE_64K, start := 0, bitmap := fun _ => 0 }
          (get_idx 0 0) TAG_USED_LEAF).start
         + (heapBytes 1 (set_tag { min_size := SIZE_64K, start := 0, bitmap := fun _ => 0 }
              (get_idx 0 0) TAG_USED_LEAF).min_size >>> 0) * 0) = .ok st' ∧
      get_tag st' (nodeIdx 0 0) = TAG_UNUSED :=
  have h := C7_free_panics_and_success 1
    { min_size := SIZE_64K, start := 0, bitmap := fun _ => 0 } 0 5 131072 0 0
    (set_tag { min_size := SIZE_64K, start := 0, bitmap := fun _ => 0 }
      (get_idx 0 0) TAG_USED_LEAF) 0 7 131072 0 0
    (set_tag { min_size := SIZE_64K, start := 0, bitmap := fun _ => 0 }
      (get_idx 0 0) TAG_USED_LEAF) 0 0
  ⟨h.1 rfl, h.2.1 rfl (by decide),
    h.2.2 (by decide) (by decide) (by decide) rfl (fun k hk => absurd hk (by omega))⟩

/-- **C6**: for every request size up to `MAX_SLAB_OBJECT = 65504`, the size
class chosen by `slab_alloc` is exactly the smallest class whose user-visible
capacity (nominal size minus the header) is at least the request; in
particular at every class boundary a request of `s - header` stays in class
`s` and `s - header + 1` escalates to the next class (beyond 65504, to the
buddy). -/
theorem C6_slab_class_dispatch :
    (∀ s, s ≤ 65504 → slab_class s = spec_smallest_class s) ∧
    (slab_class 8 = some 16 ∧ slab_class 9 = some 32 ∧
     slab_class 24 = some 32 ∧ slab_class 25 = some 64 ∧
     slab_class 56 = some 64 ∧ slab_class 57 = some 128 ∧
     slab_class 120 = some 128 ∧ slab_class 121 = some 256 ∧
     slab_class 248 = some 256 ∧ slab_class 249 = some 512 ∧
     slab_class 504 = some 512 ∧ slab_class 505 = some 1024 ∧
     slab_class 1016 = some 1024 ∧ slab_class 1017 = some 2040 ∧
     slab_class 2024 = some 2040 ∧ slab_class 2025 = some 4088 ∧
     slab_class 4072 = some 4088 ∧ slab_class 4073 = some 8184 ∧
     slab_class 8168 = some 8184 ∧ slab_class 8169 = some 16376 ∧
     slab_class 16360 = some 16376 ∧ slab_class 16361 = some 32752 ∧
     slab_class 32736 = some 32752 ∧ slab_class 32737 = some 65512 ∧
     slab_class 65504 = some 65512 ∧ slab_class 65505 = none) := by
  refine ⟨?_, by decide⟩
  intro s hs
  have e2 : (2 : Nat) ^ 2 = 4 := by norm_num
  have e3 : (2 : Nat) ^ 3 = 8 := by norm_num
  have e4 : (2 : Nat) ^ 4 = 16 := by norm_num
  have e5 : (2 : Nat) ^ 5 = 32 := by norm_num
  have e6 : (2 : Nat) ^ 6 = 64 := by norm_num
  have e7 : (2 : Nat) ^ 7 = 128 := by norm_num
  have e8 : (2 : Nat) ^ 8 = 256 := by norm_num
  have e9 : (2 : Nat) ^ 9 = 512 := by norm_num
  have e10 : (2 : Nat) ^ 10 = 1024 := by norm_num
  by_cases c1 : s ≤ 8
  · by_cases c0 : s = 0
    · subst c0
      decide
    · have hn : clz64 (s + 8 - 1) = 60 :=
        clz64_eq (show 3 < 64 by omega) (show 2 ^ 3 ≤ s + 8 - 1 by omega)
          (show s + 8 - 1 < 2 ^ (3 + 1) by omega)
      simp only [slab_class]
      rw [if_pos (Or.inr hn)]
      simp [spec_smallest_class, SLAB_CLASSES, List.find?, c1]
  by_cases c2 : s ≤ 24
  · have hn : clz64 (s + 8 - 1) = 59 :=
      clz64_eq (show 4 < 64 by omega) (show 2 ^ 4 ≤ s + 8 - 1 by omega)
        (show s + 8 - 1 < 2 ^ (4 + 1) by omega)
    simp only [slab_class]
    rw [if_neg (show ¬ (clz64 (s + 8 - 1) = 61 ∨ clz64 (s + 8 - 1) = 60) by omega),
      if_pos hn]
    simp [spec_smallest_class, SLAB_CLASSES, List.find?, c1, c2]
  by_cases c3 : s ≤ 56
  · have hn : clz64 (s + 8 - 1) = 58 :=
      clz64_eq (show 5 < 64 by omega) (show 2 ^ 5 ≤ s + 8 - 1 by omega)
        (show s + 8 - 1 < 2 ^ (5 + 1) by omega)
    simp only [slab_class]
    rw [if_neg (show ¬ (clz64 (s + 8 - 1) = 61 ∨ clz64 (s + 8 - 1) = 60) by omega),
      if_neg (show ¬ clz64 (s + 8 - 1) = 59 by omega), if_pos hn]
    simp [spec_smallest_class, SLAB_CLASSES, List.find?, c1, c2, c3]
  by_cases c4 : s ≤ 120
  · have hn : clz64 (s + 8 - 1) = 57 :=
      clz64_eq (show 6 < 64 by omega) (show 2 ^ 6 ≤ s + 8 - 1 by omega)
        (show s + 8 - 1 < 2 ^ (6 + 1) by omega)
    simp only [slab_class]
    rw [if_neg (show ¬ (clz64 (s + 8 - 1) = 61 ∨ clz64 (s + 8 - 1) = 60) by omega),
      if_neg (show ¬ clz64 (s + 8 - 1) = 59 by omega),
      if_neg (show ¬ clz64 (s + 8 - 1) = 58 by omega), if_pos hn]
    simp [spec_smallest_class, SLAB_CLASSES, List.find?, c1, c2, c3, c4]
  by_cases c5 : s ≤ 248
  · have hn : clz64 (s + 8 - 1) = 56 :=
      clz64_eq (show 7 < 64 by omega) (show 2 ^ 7 ≤ s + 8 - 1 by omega)
        (show s + 8 - 1 < 2 ^ (7 + 1) by omega)
    simp only [slab_class]
    rw [if_neg (show ¬ (clz64 (s + 8 - 1) = 61 ∨ clz64 (s + 8 - 1) = 60) by omega),
      if_neg (show ¬ clz64 (s + 8 - 1) = 59 by omega),
      if_neg (show ¬ clz64 (s + 8 - 1) = 58 by omega),
      if_neg (show ¬ clz64 (s + 8 - 1) = 57 by omega), if_pos hn]
    simp [spec_smallest_class, SLAB_CLASSES, List.find?, c1, c2, c3, c4, c5]
  by_cases c6 : s ≤ 504
  · have hn : clz64 (s + 8 - 1) = 55 :=
      clz64_eq (show 8 < 64 by omega) (show 2 ^ 8 ≤ s + 8 - 1 by omega)
        (show s + 8 - 1 < 2 ^ (8 + 1) by omega)
    simp only [slab_class]
    rw [if_neg (show ¬ (clz64 (s + 8 - 1) = 61 ∨ clz64 (s + 8 - 1) = 60) by omega),
      if_neg (show ¬ clz64 (s + 8 - 1) = 59 by omega),
      if_neg (show ¬ clz64 (s + 8 - 1) = 58 by omega),
      if_neg (show ¬ clz64 (s + 8 - 1) = 57 by omega),
      if_neg (show ¬ clz64 (s + 8 - 1) = 56 by omega), if_pos hn]
    simp [spec_smallest_class, SLAB_CLASSES, List.find?, c1, c2, c3, c4, c5, c6]
  by_cases c7 : s ≤ 1016
  · have hn : clz64 (s + 8 - 1) = 54 :=
      clz64_eq (show 9 < 64 by omega) (show 2 ^ 9 ≤ s + 8 - 1 by omega)
        (show s + 8 - 1 < 2 ^ (9 + 1) by omega)
    simp only [slab_class]
    rw [if_neg (show ¬ (clz64 (s + 8 - 1) = 61 ∨ clz64 (s + 8 - 1) = 60) by omega),
      if_neg (show ¬ clz64 (s + 8 - 1) = 59 by omega),
      if_neg (show ¬ clz64 (s + 8 - 1) = 58 by omega),
      if_neg (show ¬ clz64 (s + 8 - 1) = 57 by omega),
      if_neg (show ¬ clz64 (s + 8 - 1) = 56 by omega),
      if_neg (show ¬ clz64 (s + 8 - 1) = 55 by omega), if_pos hn]
    simp [spec_smallest_class, SLAB_CLASSES, List.find?, c1, c2, c3, c4, c5, c6, c7]
  have hb : 11 ≤ bitlen 64 (s + 8 - 1) :=
    bitlen_ge 10 64 _ (by omega) (by omega)
  have hn : clz64 (s + 8 - 1) ≤ 53 := by
    unfold clz64
    omega
  simp only [slab_class]
  rw [if_neg (show ¬ (clz64 (s + 8 - 1) = 61 ∨ clz64 (s + 8 - 1) = 60) by omega),
    if_neg (show ¬ clz64 (s + 8 - 1) = 59 by omega),
    if_neg (show ¬ clz64 (s + 8 - 1) = 58 by omega),
    if_neg (show ¬ clz64 (s + 8 - 1) = 57 by omega),
    if_neg (show ¬ clz64 (s + 8 - 1) = 56 by omega),
    if_neg (show ¬ clz64 (s + 8 - 1) = 55 by omega),
    if_neg (show ¬ clz64 (s + 8 - 1) = 54 by omega)]
  by_cases d1 : s ≤ 2024
  · rw [if_pos (show s ≤ 4088 - 16 by omega), if_pos (show s ≤ 2040 - 16 by omega)]
    simp [spec_smallest_class, SLAB_CLASSES, List.find?, c1, c2, c3, c4, c5, c6, c7, d1]
  by_cases d2 : s ≤ 4072
  · rw [if_pos (show s ≤ 4088 - 16 by omega), if_neg (show ¬ s ≤ 2040 - 16 by omega)]
    simp [spec_smallest_class, SLAB_CLASSES, List.find?, c1, c2, c3, c4, c5, c6, c7, d1, d2]
  by_cases d3 : s ≤ 8168
  · rw [if_neg (show ¬ s ≤ 4088 - 16 by omega), if_pos (show s ≤ 16376 - 16 by omega),
      if_pos (show s ≤ 8184 - 16 by omega)]
    simp [spec_smallest_class, SLAB_CLASSES, List.find?, c1, c2, c3, c4, c5, c6, c7, d1, d2, d3]
  by_cases d4 : s ≤ 16360
  · rw [if_neg (show ¬ s ≤ 4088 - 16 by omega), if_pos (show s ≤ 16376 - 16 by omega),
      if_neg (show ¬ s ≤ 8184 - 16 by omega)]
    simp [spec_smallest_class, SLAB_CLASSES, List.find?, c1, c2, c3, c4, c5, c6, c7,
      d1, d2, d3, d4]
  by_cases d5 : s ≤ 32736
  · rw [if_neg (show ¬ s ≤ 4088 - 16 by omega), if_neg (show ¬ s ≤ 16376 - 16 by omega),
      if_pos (show s ≤ 32752 - 16 by omega)]
    simp [spec_smallest_class, SLAB_CLASSES, List.find?, c1, c2, c3, c4, c5, c6, c7,
      d1, d2, d3, d4, d5]
  rw [if_neg (show ¬ s ≤ 4088 - 16 by omega), if_neg (show ¬ s ≤ 16376 - 16 by omega),
    if_neg (show ¬ s ≤ 32752 - 16 by omega), if_pos (show s ≤ 65512 - 8 by omega)]
  simp [spec_smallest_class, SLAB_CLASSES, List.find?, c1, c2, c3, c4, c5, c6, c7,
    d1, d2, d3, d4, d5, hs]

theorem C6_slab_class_dispatch_witness :
    5 ≤ 65504 ∧ slab_class 5 = spec_smallest_class 5 :=
  ⟨by decide, C6_slab_class_dispatch.1 5 (by decide)⟩

/-- **C3** (refuted — code bug): from the fresh `PageManager` over
`[0x400000, 0x800000)`, `page_alloc` returns `0x400000` and sets bit 63 of
`book[0][0]`; `page_free(0x400000)` computes `idx2`/`idx3` from the absolute
address instead of the offset from `start`, so it clears the (already clear)
bit of `book[0][1]` and leaves `book[0][0]` set: the pre-allocation state is
not restored. -/
theorem C3_page_free_wrong_indices :
    ∃ pm0 pm1 : PageManager,
      pm_new 4194304 4194304 = some pm0 ∧
      pm0.book 0 0 = 0 ∧
      page_alloc pm0 = some (4194304, pm1) ∧
      pm1.book 0 0 = 1 <<< 63 ∧
      (page_free pm1 4194304).map (fun pm2 => (pm2.book 0 0, pm2.book 0 1))
        = some (1 <<< 63, 0) := by
  exact ⟨_, _, rfl, rfl, rfl, rfl, rfl⟩

/-- **C2** (refuted — code bug): serving an allocation from the partial-list
head page when it has exactly one free slot fills the page, but the
`alloc_memory` branch only unlinks it from the partial list and never writes
`*slab_full_top`: the now-full page is reachable from neither list head, so
"reachable from the full head iff all slots occupied" fails. -/
theorem C2_full_list_not_updated :
    ∃ r : AllocMemResult Unit,
      alloc_memory32752 (fun u _ => (none, u)) () (fun _ =>
        { buf := fun _ => 0, prev := 0, next := 0,
          l1_bitmap := MASK64 ^^^ (1 <<< 62), num := 1, size := 32752 }) 65536 0
        = some r ∧
      r.ret = some 98304 ∧
      slab32752_is_full (r.store 65536) = true ∧
      ( AllocMemResult.slab_partial r) = 0 ∧
      r.slab_full = 0 ∧
      inSlabList r.store r.slab_full 65536 64 = false := by
  exact ⟨_, rfl, rfl, rfl, rfl, rfl, rfl⟩

/-- **C1** (refuted — code bug): the pair handed to the unmap callback is not
`(base, base + size)`.  When a slab page at base `0x10000` drains, the slab
path passes `(addr, addr)` — both components equal to the page base; the
page/buddy path passes `(start, start >> 16)` (or `>> 17`), not
`(start, start + block_size)`. -/
theorem C1_unmap_pair_wrong :
    ((mem_free (fun (s : Unit) (_ : Nat) => ((some 65536 : Option Nat), s)) (fun s _ => s)
        { slab := some () } 65552 16).2 = some (65536, 65536) ∧
      (65536, 65536).2 ≠ 65536 + 65536) ∧
    ((mem_free (fun (s : Unit) (_ : Nat) => ((none : Option Nat), s)) (fun s _ => s)
        { slab := some () } 33554432 2097152).2 = some (33554432, 512) ∧
      512 ≠ 33554432 + 2097152) :=
  ⟨⟨rfl, by decide⟩, ⟨rfl, by decide⟩⟩

/-- **C10**: on an `Allocator` whose `slab` option was never initialized,
`mem_alloc` and `mem_alloc_align` fail with `None`, the `GlobalAlloc` entry
point returns the null pointer `0`, and the allocator state and header memory
are returned unchanged. -/
theorem C10_uninitialized_returns_none {S : Type}
    (slabAlloc pageAlloc : S → Nat → Option Nat × S) (a : Allocator S) (mem : Nat → Nat)
    (size align : Nat) (hnone : a.slab = none) :
    mem_alloc slabAlloc pageAlloc a size = (none, a) ∧
    mem_alloc_align slabAlloc pageAlloc a mem size align = (none, a, mem) ∧
    galloc slabAlloc pageAlloc a mem size align = (0, a, mem) := by
  have hma : ∀ sz, mem_alloc slabAlloc pageAlloc a sz = (none, a) := by
    intro sz
    unfold mem_alloc
    by_cases h : sz ≤ MAX_SLAB_SIZE
    · rw [if_pos h, hnone]
    · rw [if_neg h, hnone]
  refine ⟨hma size, ?_, ?_⟩
  · simp only [mem_alloc_align]
    by_cases h : align ≤ 8
    · rw [if_pos h, hma size]
    · rw [if_neg h, hma (size + (align - 1) + 8)]
  · simp only [galloc]
    by_cases h : align ≤ 8
    · rw [if_pos h, hma size]
    · rw [if_neg h, hma (size + (align - 1) + 8)]

/-- **C9**: for a power-of-two alignment `align > 8`, when the raw
over-allocation of `size + (align-1) + 8` bytes succeeds with base `raw`,
`mem_alloc_align` returns `p = (raw + align - 1 + 8) & ~(align - 1)` with
`p % align = 0`, stores `raw` in the 8 bytes at `p - 8`, `p ≥ raw + 8`, the
user region `[p, p + size)` stays inside `[raw, raw + size + (align-1) + 8)`,
and `mem_free_align` reads `raw` back from `p - 8` and frees it with the same
adjusted size. -/
theorem C9_align_roundtrip {S : Type} (slabAlloc pageAlloc : S → Nat → Option Nat × S)
    (slabDealloc : S → Nat → Option Nat × S) (pageFree : S → Nat → S)
    (a a1 a2 : Allocator S) (mem : Nat → Nat) (size align k raw : Nat)
    (halign : align = 2 ^ k) (h8 : 8 < align) (hbound : raw + align + 8 ≤ 2 ^ 64)
    (halloc : mem_alloc slabAlloc pageAlloc a (size + (align - 1) + 8) = (some raw, a1)) :
    ∃ p, mem_alloc_align slabAlloc pageAlloc a mem size align
        = (some p, a1, Function.update mem (p - 8) raw) ∧
      p % align = 0 ∧
      Function.update mem (p - 8) raw (p - 8) = raw ∧
      raw + 8 ≤ p ∧
      p + size ≤ raw + (size + (align - 1) + 8) ∧
      mem_free_align slabDealloc pageFree a2 (Function.update mem (p - 8) raw) p size align
        = mem_free slabDealloc pageFree a2 raw (size + (align - 1) + 8) := by
  subst halign
  have hk0 : 0 < 2 ^ k := Nat.two_pow_pos k
  have hx : raw + (2 ^ k - 1) + 8 < 2 ^ 64 := by omega
  have hk64 : k ≤ 64 := by
    by_contra hgt
    have h1 : (2 : Nat) ^ 64 < 2 ^ k := Nat.pow_lt_pow_right (by omega) (by omega)
    omega
  have hstep : mem_alloc_align slabAlloc pageAlloc a mem size (2 ^ k)
      = (some ((raw + (2 ^ k - 1) + 8) % 2 ^ 64 &&& (MASK64 ^^^ (2 ^ k - 1))), a1,
         Function.update mem
           (((raw + (2 ^ k - 1) + 8) % 2 ^ 64 &&& (MASK64 ^^^ (2 ^ k - 1))) - 8) raw) := by
    simp only [mem_alloc_align]
    rw [if_neg (by omega), halloc]
  have hmod : (raw + (2 ^ k - 1) + 8) % 2 ^ 64 = raw + (2 ^ k - 1) + 8 :=
    Nat.mod_eq_of_lt hx
  rw [hmod, and_mask_eq k _ hk64 hx] at hstep
  have hdm : (raw + (2 ^ k - 1) + 8) / 2 ^ k * 2 ^ k + (raw + (2 ^ k - 1) + 8) % 2 ^ k
      = raw + (2 ^ k - 1) + 8 := Nat.div_add_mod' _ _
  have hmlt : (raw + (2 ^ k - 1) + 8) % 2 ^ k < 2 ^ k := Nat.mod_lt _ hk0
  refine ⟨(raw + (2 ^ k - 1) + 8) / 2 ^ k * 2 ^ k, hstep, Nat.mul_mod_left _ _,
    Function.update_same _ _ _, by omega, by omega, ?_⟩
  simp only [mem_free_align]
  rw [if_neg (by omega), Function.update_same]
  congr 1
  omega

theorem C9_align_roundtrip_witness :
    16 = 2 ^ 4 ∧ 8 < 16 ∧ 1000 + 16 + 8 ≤ 2 ^ 64 ∧
    ∃ p, mem_alloc_align (fun (s : Unit) (_ : Nat) => ((some 1000 : Option Nat), s))
        (fun s _ => (none, s)) { slab := some () } (fun _ => 0) 5 16
        = (some p, { slab := some () }, Function.update (fun _ => (0 : Nat)) (p - 8) 1000) ∧
      p % 16 = 0 ∧
      Function.update (fun _ => (0 : Nat)) (p - 8) 1000 (p - 8) = 1000 ∧
      1000 + 8 ≤ p ∧
      p + 5 ≤ 1000 + (5 + (16 - 1) + 8) ∧
      mem_free_align (fun (s : Unit) (_ : Nat) => ((none : Option Nat), s)) (fun s _ => s)
        { slab := some () } (Function.update (fun _ => (0 : Nat)) (p - 8) 1000) p 5 16
        = mem_free (fun (s : Unit) (_ : Nat) => ((none : Option Nat), s)) (fun s _ => s)
          { slab := some () } 1000 (5 + (16 - 1) + 8) :=
  ⟨rfl, by decide, by decide,
    C9_align_roundtrip (fun (s : Unit) (_ : Nat) => ((some 1000 : Option Nat), s))
      (fun s _ => (none, s)) (fun (s : Unit) (_ : Nat) => ((none : Option Nat), s))
      (fun s _ => s) { slab := some () } { slab := some () } { slab := some () }
      (fun _ => 0) 5 16 4 1000 rfl (by decide) (by decide) rfl⟩

theorem C10_uninitialized_returns_none_witness :
    mem_alloc (fun (s : Unit) (_ : Nat) => ((some 7 : Option Nat), s))
      (fun s _ => (some 7, s)) { slab := none } 5 = (none, { slab := none }) ∧
    mem_alloc_align (fun (s : Unit) (_ : Nat) => ((some 7 : Option Nat), s))
      (fun s _ => (some 7, s)) { slab := none } (fun _ => 0) 5 16
      = (none, { slab := none }, fun _ => 0) ∧
    galloc (fun (s : Unit) (_ : Nat) => ((some 7 : Option Nat), s))
      (fun s _ => (some 7, s)) { slab := none } (fun _ => 0) 5 16
      = (0, { slab := none }, fun _ => 0) :=
  C10_uninitialized_returns_none (fun (s : Unit) (_ : Nat) => ((some 7 : Option Nat), s))
    (fun s _ => (some 7, s)) { slab := none } (fun _ => 0) 5 16 rfl

end Memalloc
